import Mathlib

/-!
Verification of the junkdrawer repository: a WordPress post-link harvester
(getWordpressLinks.py) and an XML pretty-printer (mybin/prettyxml.py).

Strings are modelled as lists of characters (Python `str`).  Network I/O
(the `requests` library) is modelled by oracles mapping page numbers to
responses; BeautifulSoup CSS selection is modelled by giving each fetched
page as the list of candidate href values the three selectors produce;
`urllib.parse.urljoin` is an abstract parameter.  `urllib.parse.urlsplit`
is modelled for its scheme and netloc components following the CPython
implementation (IPv6-bracket validation and control-character
sanitisation of very recent CPython are not modelled).  The fixed sleep
throttle and request timeout have no observable effect on values and are
not modelled.
-/

/-- Python `str` is modelled as a list of characters. -/
abbrev Str := List Char

/-- Python `s.split("#")[0]`: the longest hash-free starting segment of `s`. -/
def splitHashHead (s : Str) : Str := s.takeWhile (fun c => c ≠ '#')

/-- Python `s.rstrip("/")`: remove all trailing `'/'` characters. -/
def rstripSlash (s : Str) : Str := s.rdropWhile (fun c => c = '/')

/-- The URL normalisation `href.split("#")[0].rstrip("/")` used at
getWordpressLinks.py lines 104 and 154. -/
def normalizeLink (s : Str) : Str := rstripSlash (splitHashHead s)


/-! ## urllib.parse.urlsplit model (scheme and netloc components) -/

/-- Characters allowed in a URL scheme by `urllib.parse` (letters, digits, `+-.`). -/
def isSchemeChar (c : Char) : Bool := c.isAlpha || c.isDigit || c = '+' || c = '-' || c = '.'

/-- Split a string at its first `':'`, if any, returning the parts before and after. -/
def splitColon : Str → Option (Str × Str)
  | [] => none
  | c :: cs =>
    if c = ':' then some ([], cs)
    else
      match splitColon cs with
      | some (p, r) => some (c :: p, r)
      | none => none

/-- `urlsplit` accepts `p` as a scheme when it is nonempty, starts with an ASCII
letter and consists of scheme characters only. -/
def validScheme (p : Str) : Bool :=
  match p with
  | [] => false
  | c :: _ => c.isAlpha && p.all isSchemeChar

/-- The scheme/remainder split performed by `urllib.parse.urlsplit`: the part
before the first `':'` is the (lowercased) scheme when it is well formed,
otherwise the scheme is empty and the whole string remains. -/
def urlSchemeSplit (h : Str) : Str × Str :=
  match splitColon h with
  | some (p, r) => if validScheme p then (p.map Char.toLower, r) else ([], h)
  | none => ([], h)

/-- `urlsplit(h).scheme` -/
def url_scheme (h : Str) : Str := (urlSchemeSplit h).1

/-- What remains of the URL after removing a well-formed scheme. -/
def url_after (h : Str) : Str := (urlSchemeSplit h).2

/-- Characters terminating the netloc component: `'/'`, `'?'`, `'#'`. -/
def isStopChar (c : Char) : Bool := c = '/' || c = '?' || c = '#'

/-- `urlsplit(h).netloc`: when the remainder after the scheme starts with `"//"`,
everything up to the first `'/'`, `'?'` or `'#'`; otherwise empty. -/
def url_netloc (h : Str) : Str :=
  match url_after h with
  | c1 :: c2 :: t =>
    if c1 = '/' ∧ c2 = '/' then t.takeWhile (fun c => !isStopChar c) else []
  | _ => []

/-- getWordpressLinks.py lines 17-24 (`norm_site`): prepend `"https://"` unless
the input starts with `"http://"` or `"https://"`, then return
(`f"{scheme}://{netloc}"`, `netloc`) of the resulting string. -/
def prefixedSite (site : Str) : Str :=
  if "http://".data.isPrefixOf site || "https://".data.isPrefixOf site then site
  else "https://".data ++ site

/-- getWordpressLinks.py lines 17-24: `norm_site` returns `(full_base_url, hostname)`. -/
def norm_site (site : Str) : Str × Str :=
  let site' := prefixedSite site
  let host := url_netloc site'
  (url_scheme site' ++ ':' :: '/' :: '/' :: host, host)

/-! ## Lexicographic order on strings and the sorted deduplicated link set -/

/-- Python string comparison `<`: lexicographic by code point. -/
def lexLt : Str → Str → Bool
  | [], [] => false
  | [], _ :: _ => true
  | _ :: _, [] => false
  | a :: as, b :: bs => if a < b then true else if b < a then false else lexLt as bs

/-- Insert a string into a strictly `lexLt`-sorted duplicate-free list, keeping
it sorted and duplicate-free.  A list maintained this way is exactly the value
of Python `sorted(S)` for the underlying set `S`, so it models both the running
`set` of the scraper (membership and cardinality agree) and the final
`sorted(...)` calls. -/
def insertSorted (x : Str) : List Str → List Str
  | [] => [x]
  | y :: ys =>
    if lexLt x y then x :: y :: ys
    else if x = y then y :: ys
    else y :: insertSorted x ys

/-- `sorted(set(l))` for a list `l` of strings. -/
def sortDedup (l : List Str) : List Str := l.foldr insertSorted []

/-- A list of strings in strictly increasing lexical order. -/
def StrSorted (l : List Str) : Prop := l.Pairwise (fun a b => lexLt a b = true)

/-! ## REST clients (getWordpressLinks.py lines 27-75) -/

/-- One JSON post record; `link` is `p["link"]` when present (requesting
`_fields=id,link,date` makes the other fields irrelevant to the program). -/
structure Post where
  link : Option Str
deriving DecidableEq

/-- The parsed body of a REST response: a JSON list of posts, or something
`r.json()` / `posts.extend` fails on. -/
inductive Body where
  | jsonList (batch : List Post)
  | invalid
deriving DecidableEq

/-- An HTTP response as seen through `requests`. -/
structure HttpResponse where
  status : Nat
  body : Body
deriving DecidableEq

/-- Result of one `requests.get` call: an exception (network error, timeout, ...)
or a response. -/
inductive NetResult where
  | exn
  | resp (r : HttpResponse)

/-- Exceptions a fetch attempt can raise. -/
inductive FetchError where
  | network
  | httpStatus (status : Nat)
  | jsonDecode
deriving DecidableEq

/-- Outcome of a fetch function: normal return, an exception propagating to the
caller, or nontermination (the page oracle never yields an empty batch). -/
inductive FetchOutcome where
  | ok (posts : List Post)
  | raised (e : FetchError)
  | hang
deriving DecidableEq

/-- `requests.Response.raise_for_status` raises exactly for status 400-599. -/
def raiseForStatus (s : Nat) : Bool := 400 ≤ s && s < 600

/-- The shared pagination loop of both REST clients (lines 33-52 and 60-75):
starting from `page`, fetch pages until an empty batch, accumulating records.
`na` is the tier's "not applicable" status test (immediate `return []`).
`fuel` bounds the number of requests so the function is total; exhausting it
models the (unreachable-in-practice) infinite loop as `.hang`. -/
def fetchLoop (na : Nat → Bool) (net : Nat → NetResult) :
    Nat → Nat → List Post → FetchOutcome
  | 0, _, _ => .hang
  | fuel + 1, page, acc =>
    match net page with
    | .exn => .raised .network
    | .resp r =>
      if na r.status then .ok []
      else if raiseForStatus r.status then .raised (.httpStatus r.status)
      else
        match r.body with
        | .invalid => .raised .jsonDecode
        | .jsonList [] => .ok acc
        | .jsonList batch => fetchLoop na net fuel (page + 1) (acc ++ batch)

/-- getWordpressLinks.py lines 27-52: WordPress.com API client; status 404 and
401 each mean "not applicable".  The request URL (hostname, per_page, page) is
absorbed into the page-indexed oracle `net`. -/
def fetch_posts_via_wpcom_api (net : Nat → NetResult) (fuel : Nat) : FetchOutcome :=
  fetchLoop (fun s => s == 404 || s == 401) net fuel 1 []

/-- getWordpressLinks.py lines 55-75: self-hosted REST client; status 401, 403
and 404 mean "not applicable". -/
def fetch_posts_via_site_rest (net : Nat → NetResult) (fuel : Nat) : FetchOutcome :=
  fetchLoop (fun s => s == 401 || s == 403 || s == 404) net fuel 1 []

/-! ## HTML archive scraper (getWordpressLinks.py lines 78-144) -/

/-- A fetched HTML page, abstracted (as BeautifulSoup is a library) to the
concatenated list of `a.get("href")` values produced by the three CSS-selector
queries of `extract_links` (lines 90-92); `none` entries are anchors without an
`href` attribute.  An absent page (`r.ok` false or empty `r.text`) is `none`. -/
abbrev HtmlPage := List (Option Str)

/-- Processing of one candidate href by `extract_links` (lines 94-104): skip
falsy hrefs, make scheme-less hrefs absolute with `urljoin` (abstract parameter
`uj`), keep only candidates whose `f"{u.scheme}://{u.netloc}".rstrip("/")`
equals `base_url.rstrip("/")`, and add the normalized href to the link set. -/
def stepCandidate (base : Str) (uj : Str → Str → Str) (links : List Str) :
    Option Str → List Str
  | none => links
  | some [] => links
  | some h =>
    let h' := if url_scheme h = [] then uj base h else h
    if rstripSlash (url_scheme h' ++ ':' :: '/' :: '/' :: url_netloc h') = rstripSlash base
    then insertSorted (normalizeLink h') links
    else links

/-- getWordpressLinks.py lines 86-104: `extract_links` adds every accepted
candidate of an HTML page to the link set. -/
def extract_links (base : Str) (uj : Str → Str → Str) (cands : HtmlPage)
    (links : List Str) : List Str :=
  cands.foldl (stepCandidate base uj) links

/-- One iteration body of the pagination loop (lines 114-130): try
`/page/N` (oracle `net1`); if it yields no new links, try `?paged=N`
(oracle `net2`). -/
def pageHarvest (base : Str) (uj : Str → Str → Str)
    (net1 net2 : Nat → Option HtmlPage) (links : List Str) (page : Nat) : List Str :=
  let l1 :=
    match net1 page with
    | some html => extract_links base uj html links
    | none => links
  if links.length < l1.length then l1
  else
    match net2 page with
    | some html => extract_links base uj html l1
    | none => l1

/-- getWordpressLinks.py lines 111-142: the pagination loop.  Returns the link
set together with the final value of `page` (the latter is internal to the
Python loop and returned here so that stopping behaviour can be stated).
Termination is by the safety valve of line 141: `page` grows by one per
iteration and the loop breaks once it exceeds 2000. -/
def scrapeLoop (base : Str) (uj : Str → Str → Str) (net1 net2 : Nat → Option HtmlPage)
    (maxEmpty : Nat) (links : List Str) (streak page : Nat) : List Str × Nat :=
  if streak < maxEmpty then
    let links' := pageHarvest base uj net1 net2 links page
    let streak' := if links.length < links'.length then 0 else streak + 1
    if 2000 < page + 1 then (links', page + 1)
    else scrapeLoop base uj net1 net2 maxEmpty links' streak' (page + 1)
  else (links, page)
termination_by 2001 - page
decreasing_by omega

/-- getWordpressLinks.py lines 78-144: `scrape_posts_from_paged_lists`.  The
homepage (line 107-109) is `home`; the final `sorted(links)` of line 144 is the
sorted list the model maintains throughout. -/
def scrape_posts_from_paged_lists (base : Str) (uj : Str → Str → Str)
    (home : Option HtmlPage) (net1 net2 : Nat → Option HtmlPage)
    (maxEmpty : Nat) : List Str :=
  let links0 :=
    match home with
    | some html => extract_links base uj html []
    | none => []
  (scrapeLoop base uj net1 net2 maxEmpty links0 0 1).1

/-! ## Orchestrator (getWordpressLinks.py lines 147-168) -/

/-- An exception caught by one of the two `except` blocks of
`harvest_all_post_links`: either the fetch function raised, or the
`p["link"]` lookup in the set comprehension raised `KeyError`. -/
inductive TierExn where
  | fetchExn (e : FetchError)
  | keyError
deriving DecidableEq

/-- One line of diagnostic (stderr) output of `harvest_all_post_links`. -/
inductive Warn where
  | wpcomFailed (e : TierExn)
  | siteRestFailed (e : TierExn)
  | fallbackInfo
deriving DecidableEq

/-- The `p["link"]` fields of a list of posts; `none` when some post has no
link (Python raises `KeyError` at that point). -/
def postLinks : List Post → Option (List Str)
  | [] => some []
  | p :: ps =>
    match p.link with
    | none => none
    | some l => (postLinks ps).map (fun ls => l :: ls)

/-- `sorted({p["link"].split("#")[0].rstrip("/") for p in posts})` of lines 154
and 162, `none` when the comprehension raises `KeyError`. -/
def tierLinks (ps : List Post) : Option (List Str) :=
  (postLinks ps).map (fun ls => sortDedup (ls.map normalizeLink))

/-- getWordpressLinks.py lines 147-168: `harvest_all_post_links`.  Tier 1 and
tier 2 exceptions are caught, appended to the stderr transcript and the next
tier runs; an empty (falsy) tier result also falls through, without a warning.
The result is `none` when a REST pagination loop never terminates. -/
def harvest_all_post_links (site : Str) (netW netS : Nat → NetResult)
    (uj : Str → Str → Str) (home : Option HtmlPage)
    (net1 net2 : Nat → Option HtmlPage) (fuel : Nat) :
    Option (List Str × List Warn) :=
  let base := (norm_site site).1
  let tier3 := fun (w : List Warn) =>
    some (scrape_posts_from_paged_lists base uj home net1 net2 2,
      w ++ [Warn.fallbackInfo])
  let tier2 := fun (w : List Warn) =>
    match fetch_posts_via_site_rest netS fuel with
    | .hang => none
    | .raised e => tier3 (w ++ [Warn.siteRestFailed (.fetchExn e)])
    | .ok ps =>
      if ps.isEmpty then tier3 w
      else
        match tierLinks ps with
        | none => tier3 (w ++ [Warn.siteRestFailed .keyError])
        | some out => some (out, w)
  match fetch_posts_via_wpcom_api netW fuel with
  | .hang => none
  | .raised e => tier2 [Warn.wpcomFailed (.fetchExn e)]
  | .ok ps =>
    if ps.isEmpty then tier2 []
    else
      match tierLinks ps with
      | none => tier2 [Warn.wpcomFailed .keyError]
      | some out => some (out, [])

/-! ## CSV writer and main (getWordpressLinks.py lines 171-189) -/

/-- The `csv` module default dialect quotes a field iff it contains the
delimiter, the quote character or a line-terminator character. -/
def csvNeedsQuote (f : Str) : Bool :=
  f.any (fun c => c = ',' || c = '"' || c = '\r' || c = '\n')

/-- One CSV field, quoted and with inner quotes doubled when needed. -/
def csvField (f : Str) : Str :=
  if csvNeedsQuote f then
    '"' :: (f.flatMap (fun c => if c = '"' then ['"', '"'] else [c])) ++ ['"']
  else f

/-- getWordpressLinks.py lines 171-176: `write_csv` produces a header row
`url` followed by one row per link (the csv module terminates rows with
`"\r\n"`).  The value is the full text written to `post_links.csv`. -/
def write_csv (paths : List Str) : Str :=
  ("url".data ++ ['\r', '\n']) ++ paths.flatMap (fun u => csvField u ++ ['\r', '\n'])

/-- The line printed on stdout at getWordpressLinks.py line 189. -/
def foundMessage (n : Nat) : Str :=
  "Found ".data ++ (Nat.repr n).data ++ " posts. Wrote post_links.csv".data

/-- Observable outcome of `main`: usage error (exit status 1), or normal
termination with the CSV file content, the stdout line and the stderr
transcript. -/
inductive MainResult where
  | usageError
  | success (csv : Str) (stdout : Str) (stderr : List Warn)
deriving DecidableEq

/-- getWordpressLinks.py lines 179-189: `main`.  `argv` includes the program
name; `none` models a run that never terminates. -/
def main_run (argv : List Str) (netW netS : Nat → NetResult)
    (uj : Str → Str → Str) (home : Option HtmlPage)
    (net1 net2 : Nat → Option HtmlPage) (fuel : Nat) : Option MainResult :=
  match argv with
  | [_, site] =>
    match harvest_all_post_links site netW netS uj home net1 net2 fuel with
    | none => none
    | some (links, w) =>
      some (.success (write_csv links) (foundMessage links.length) w)
  | _ => some .usageError

/-! ## XML pretty-printer (mybin/prettyxml.py) -/

/-- An XML tree: elements with attributes and children, and text nodes.
Comments and processing instructions, which the script passes through
unchanged, are not modelled. -/
inductive Xml where
  | elem (tag : Str) (attrs : List (Str × Str)) (children : List Xml)
  | text (content : Str)

/-- XML whitespace. -/
def isXmlSpace (c : Char) : Bool := c = ' ' || c = '\n' || c = '\t' || c = '\r'

/-- A whitespace-only string. -/
def isBlankStr (s : Str) : Bool := s.all isXmlSpace

/-- A node kept by the whitespace-stripping parser
(`etree.XMLParser(remove_blank_text=True)`): everything except
whitespace-only text nodes. -/
def keepNode : Xml → Bool
  | .text s => !isBlankStr s
  | .elem _ _ _ => true

mutual

/-- The tree produced by re-parsing a serialization of `x` with the
whitespace-stripping parser of prettyxml.py line 7: whitespace-only text
children are dropped everywhere. -/
def stripBlank : Xml → Xml
  | .text s => .text s
  | .elem t a cs => .elem t a (stripChildren cs)

/-- `stripBlank` on a list of children. -/
def stripChildren : List Xml → List Xml
  | [] => []
  | c :: cs => if keepNode c then stripBlank c :: stripChildren cs else stripChildren cs

end

/-- Is this node a text node?  `pretty_print` disables indentation inside any
element that has text content. -/
def isTextNode : Xml → Bool
  | .text _ => true
  | .elem _ _ _ => false

/-- The whitespace inserted by `pretty_print` before a node at depth `lvl`:
a newline and two spaces of indentation per level. -/
def indentStr (lvl : Nat) : Str := '\n' :: List.replicate (2 * lvl) ' '

/-- Interleave indentation text nodes with the children of an element at depth
`lvl`: each child is preceded by the depth-(`lvl`+1) indentation and the closing
tag by the depth-`lvl` indentation. -/
def addIndentNodes (lvl : Nat) (cs : List Xml) : List Xml :=
  cs.flatMap (fun c => [Xml.text (indentStr (lvl + 1)), c]) ++ [Xml.text (indentStr lvl)]

mutual

/-- The tree whose plain serialization is the `pretty_print=True` output of
`etree.tostring` (prettyxml.py line 11) for a tree at depth `lvl`: indentation
text nodes are inserted between the children of an element, except inside
elements with text content (lxml/libxml2 disables formatting for the whole
subtree of any element with a text child) and inside empty elements. -/
def withIndent (lvl : Nat) (fmt : Bool) : Xml → Xml
  | .text s => .text s
  | .elem t a cs =>
    let fmt' := fmt && !cs.any isTextNode
    let cs' := withIndentList (lvl + 1) fmt' cs
    if fmt' && !cs.isEmpty then .elem t a (addIndentNodes lvl cs')
    else .elem t a cs'

/-- `withIndent` on a list of children. -/
def withIndentList (lvl : Nat) (fmt : Bool) : List Xml → List Xml
  | [] => []
  | c :: cs => withIndent lvl fmt c :: withIndentList lvl fmt cs

end

/-- Escaping of text content in the serializer. -/
def escText (s : Str) : Str :=
  s.flatMap (fun c =>
    if c = '&' then "&amp;".data
    else if c = '<' then "&lt;".data
    else if c = '>' then "&gt;".data
    else [c])

/-- Escaping of attribute values in the serializer. -/
def escAttr (s : Str) : Str :=
  s.flatMap (fun c =>
    if c = '&' then "&amp;".data
    else if c = '<' then "&lt;".data
    else if c = '>' then "&gt;".data
    else if c = '"' then "&quot;".data
    else [c])

/-- Serialized attribute list: ` name="value"` for each attribute. -/
def renderAttrs (attrs : List (Str × Str)) : Str :=
  attrs.flatMap (fun p => ' ' :: p.1 ++ '=' :: '"' :: escAttr p.2 ++ ['"'])

mutual

/-- Plain (non-pretty) serialization of a tree: empty elements self-close,
text is escaped. -/
def renderTree : Xml → Str
  | .text s => escText s
  | .elem t a [] => '<' :: t ++ renderAttrs a ++ "/>".data
  | .elem t a (c :: cs) =>
    '<' :: t ++ renderAttrs a ++ '>' :: renderList (c :: cs) ++ "</".data ++ t ++ [ '>' ]

/-- `renderTree` on a list of children. -/
def renderList : List Xml → Str
  | [] => []
  | c :: cs => renderTree c ++ renderList cs

end

/-- prettyxml.py lines 5-15 (`pretty_print_xml`) at tree level: one pass parses
the document with the whitespace-stripping parser and re-serializes it with
`pretty_print=True`; the tree whose plain serialization is that output is
`withIndent 0 true (stripBlank t)`. -/
def prettyPassTree (t : Xml) : Xml := withIndent 0 true (stripBlank t)

/-- The byte output of one `pretty_print_xml` pass on a document whose parsed
tree is `t` (`etree.tostring` of an ElementTree appends a final newline). -/
def prettyOutput (t : Xml) : Str := renderTree (prettyPassTree t) ++ ['\n']

/-- prettyxml.py line 18: the output filename is the literal `"pretty_"`
prepended to the whole command-line argument. -/
def prettyOutputName (arg : Str) : Str := "pretty_".data ++ arg


/-! ## String-normalisation lemmas -/

theorem splitHashHead_of_no_hash {s : Str} (h : '#' ∉ s) : splitHashHead s = s := by
  simp only [splitHashHead]
  exact List.takeWhile_eq_self_iff.mpr (by
    intro c hc
    simp only [decide_eq_true_eq, ne_eq]
    intro hce
    exact h (hce ▸ hc))

theorem rstripSlash_of_last_ne {s : Str} (h : ∀ hl : s ≠ [], s.getLast hl ≠ '/') :
    rstripSlash s = s := by
  refine List.rdropWhile_eq_self_iff.mpr ?_
  intro hl
  simp only [decide_eq_true_eq]
  exact h hl

theorem rstripSlash_isPrefix (s : Str) : rstripSlash s <+: s :=
  List.rdropWhile_prefix _ _

theorem no_hash_splitHashHead (s : Str) : '#' ∉ splitHashHead s := by
  intro hmem
  have := List.mem_takeWhile_imp hmem
  simp at this

theorem last_ne_rstripSlash (s : Str) (hl : rstripSlash s ≠ []) :
    (rstripSlash s).getLast hl ≠ '/' := by
  have := List.rdropWhile_last_not (fun c => c = '/') s hl
  simpa using this

/-- `normalizeLink` output never contains `'#'`. -/
theorem no_hash_normalizeLink (s : Str) : '#' ∉ normalizeLink s := by
  intro hmem
  have h1 : '#' ∈ splitHashHead s :=
    (rstripSlash_isPrefix (splitHashHead s)).mem hmem
  exact no_hash_splitHashHead s h1

/-- `normalizeLink` is idempotent on every string. -/
theorem normalizeLink_idem (s : Str) : normalizeLink (normalizeLink s) = normalizeLink s := by
  have h1 : splitHashHead (normalizeLink s) = normalizeLink s :=
    splitHashHead_of_no_hash (no_hash_normalizeLink s)
  show rstripSlash (splitHashHead (normalizeLink s)) = normalizeLink s
  rw [h1]
  exact rstripSlash_of_last_ne (fun hl => last_ne_rstripSlash (splitHashHead s) hl)

/-! ## Lexicographic order lemmas -/

theorem lexLt_irrefl (s : Str) : lexLt s s = false := by
  induction s with
  | nil => rfl
  | cons a as ih => simp [lexLt, ih]

theorem lexLt_cons (x y : Char) (xs ys : Str) :
    lexLt (x :: xs) (y :: ys) = true ↔ (x < y ∨ (x = y ∧ lexLt xs ys = true)) := by
  by_cases h1 : x < y
  · simp [lexLt, h1]
  · by_cases h2 : y < x
    · have hne : x ≠ y := ne_of_gt h2
      simp [lexLt, h1, h2, hne]
    · have heq : x = y := le_antisymm (not_lt.mp h2) (not_lt.mp h1)
      simp [lexLt, h1, h2, heq]

theorem lexLt_trans (a : Str) : ∀ (b c : Str),
    lexLt a b = true → lexLt b c = true → lexLt a c = true := by
  induction a with
  | nil =>
    intro b c hab hbc
    match b, c with
    | [], _ => simp [lexLt] at hab
    | _ :: _, [] => simp [lexLt] at hbc
    | _ :: _, _ :: _ => rfl
  | cons x xs ih =>
    intro b c hab hbc
    match b, c with
    | [], _ => simp [lexLt] at hab
    | _ :: _, [] => simp [lexLt] at hbc
    | y :: ys, z :: zs =>
      rw [lexLt_cons] at hab hbc ⊢
      rcases hab with h | ⟨he, hxs⟩
      · rcases hbc with h2 | ⟨he2, _⟩
        · exact Or.inl (lt_trans h h2)
        · exact Or.inl (he2 ▸ h)
      · rcases hbc with h2 | ⟨he2, hys⟩
        · exact Or.inl (he ▸ h2)
        · exact Or.inr ⟨he.trans he2, ih ys zs hxs hys⟩

theorem lexLt_asymm {a b : Str} (h : lexLt a b = true) : lexLt b a = false := by
  by_contra hc
  have := lexLt_trans a b a h (Bool.of_not_eq_false hc)
  rw [lexLt_irrefl] at this
  exact Bool.false_ne_true this

theorem lexLt_conn : ∀ (a b : Str), lexLt a b = false → lexLt b a = false → a = b
  | [], [], _, _ => rfl
  | [], _ :: _, h, _ => by simp [lexLt] at h
  | _ :: _, [], _, h => by simp [lexLt] at h
  | x :: xs, y :: ys, h, h2 => by
    have hx : ¬(x < y ∨ (x = y ∧ lexLt xs ys = true)) := by
      rw [← lexLt_cons]
      simp [h]
    have hy : ¬(y < x ∨ (y = x ∧ lexLt ys xs = true)) := by
      rw [← lexLt_cons]
      simp [h2]
    push_neg at hx hy
    have heq : x = y := le_antisymm hy.1 hx.1
    have hxs : lexLt xs ys = false := by
      have := hx.2 heq
      simp [this]
    have hys : lexLt ys xs = false := by
      have := hy.2 heq.symm
      simp [this]
    rw [heq, lexLt_conn xs ys hxs hys]

/-! ## Sorted-set (insertSorted / sortDedup) lemmas -/

theorem insertSorted_cons_lt {x y : Str} (ys : List Str) (h : lexLt x y = true) :
    insertSorted x (y :: ys) = x :: y :: ys := by
  simp [insertSorted, h]

theorem insertSorted_cons_self (x : Str) (ys : List Str) :
    insertSorted x (x :: ys) = x :: ys := by
  simp [insertSorted, lexLt_irrefl]

theorem insertSorted_cons_gt {x y : Str} (ys : List Str) (h : lexLt x y = false)
    (hne : x ≠ y) : insertSorted x (y :: ys) = y :: insertSorted x ys := by
  simp [insertSorted, h, hne]

theorem mem_insertSorted (x a : Str) : ∀ (l : List Str),
    (a ∈ insertSorted x l ↔ a = x ∨ a ∈ l) := by
  intro l
  induction l with
  | nil => simp [insertSorted]
  | cons y ys ih =>
    rcases (Bool.eq_false_or_eq_true (lexLt x y)).symm with h1 | h1
    · by_cases h2 : x = y
      · subst h2
        rw [insertSorted_cons_self, List.mem_cons]
        tauto
      · rw [insertSorted_cons_gt ys h1 h2, List.mem_cons, ih, List.mem_cons]
        tauto
    · rw [insertSorted_cons_lt ys h1, List.mem_cons, List.mem_cons]

theorem insertSorted_sorted (x : Str) : ∀ (l : List Str),
    StrSorted l → StrSorted (insertSorted x l) := by
  intro l
  induction l with
  | nil =>
    intro _
    simp [insertSorted, StrSorted]
  | cons y ys ih =>
    intro hs
    rw [StrSorted, List.pairwise_cons] at hs
    obtain ⟨hy, hys⟩ := hs
    rcases (Bool.eq_false_or_eq_true (lexLt x y)).symm with h1 | h1
    · by_cases h2 : x = y
      · subst h2
        rw [insertSorted_cons_self]
        exact List.pairwise_cons.mpr ⟨hy, hys⟩
      · rw [insertSorted_cons_gt ys h1 h2]
        rw [StrSorted, List.pairwise_cons]
        constructor
        · intro b hb
          rcases (mem_insertSorted x b ys).mp hb with h | h
          · subst h
            rcases (Bool.eq_false_or_eq_true (lexLt y b)).symm with h3 | h3
            · exact absurd (lexLt_conn b y h1 h3) h2
            · exact h3
          · exact hy b h
        · exact ih hys
    · rw [insertSorted_cons_lt ys h1]
      rw [StrSorted, List.pairwise_cons]
      refine ⟨?_, List.pairwise_cons.mpr ⟨hy, hys⟩⟩
      intro b hb
      rcases List.mem_cons.mp hb with h | h
      · exact h ▸ h1
      · exact lexLt_trans x y b h1 (hy b h)

theorem insertSorted_of_mem (x : Str) : ∀ (l : List Str),
    StrSorted l → x ∈ l → insertSorted x l = l := by
  intro l
  induction l with
  | nil => intro _ h; simp at h
  | cons y ys ih =>
    intro hs hm
    rw [StrSorted, List.pairwise_cons] at hs
    obtain ⟨hy, hys⟩ := hs
    rcases List.mem_cons.mp hm with h | h
    · subst h
      exact insertSorted_cons_self x ys
    · have hyx : lexLt y x = true := hy x h
      have h1 : lexLt x y = false := lexLt_asymm hyx
      have h2 : x ≠ y := by
        intro he
        subst he
        rw [lexLt_irrefl] at hyx
        exact Bool.false_ne_true hyx
      rw [insertSorted_cons_gt ys h1 h2, ih hys h]

theorem length_insertSorted_of_not_mem (x : Str) : ∀ (l : List Str),
    x ∉ l → (insertSorted x l).length = l.length + 1 := by
  intro l
  induction l with
  | nil => intro _; rfl
  | cons y ys ih =>
    intro hm
    have h2 : x ≠ y := fun he => hm (he ▸ List.mem_cons_self x _)
    rcases (Bool.eq_false_or_eq_true (lexLt x y)).symm with h1 | h1
    · rw [insertSorted_cons_gt ys h1 h2]
      simp only [List.length_cons]
      rw [ih (fun hc => hm (List.mem_cons.mpr (Or.inr hc)))]
    · rw [insertSorted_cons_lt ys h1]
      simp

theorem sortDedup_sorted (l : List Str) : StrSorted (sortDedup l) := by
  induction l with
  | nil => simp [sortDedup, StrSorted]
  | cons x xs ih => exact insertSorted_sorted x (sortDedup xs) ih

theorem mem_sortDedup (a : Str) : ∀ (l : List Str), a ∈ sortDedup l ↔ a ∈ l := by
  intro l
  induction l with
  | nil => simp [sortDedup]
  | cons x xs ih =>
    show a ∈ insertSorted x (sortDedup xs) ↔ _
    rw [mem_insertSorted, ih, List.mem_cons]

theorem strSorted_nodup {l : List Str} (h : StrSorted l) : l.Nodup := by
  induction l with
  | nil => simp
  | cons x xs ih =>
    rw [StrSorted, List.pairwise_cons] at h
    obtain ⟨hx, hxs⟩ := h
    rw [List.nodup_cons]
    refine ⟨?_, ih hxs⟩
    intro hc
    have := hx x hc
    rw [lexLt_irrefl] at this
    exact Bool.false_ne_true this

/-! ## urlsplit lemmas -/

theorem schemeChar_not_special {c : Char} (h : isSchemeChar c = true) :
    c ≠ ':' ∧ c ≠ '/' ∧ c ≠ '?' ∧ c ≠ '#' := by
  refine ⟨?_, ?_, ?_, ?_⟩ <;> rintro rfl <;> revert h <;> decide

theorem validScheme_mem {p : Str} (h : validScheme p = true) {c : Char} (hc : c ∈ p) :
    isSchemeChar c = true := by
  match p, h with
  | c0 :: cs, h =>
    have := (Bool.and_eq_true _ _).mp h
    exact List.all_eq_true.mp this.2 c hc

theorem splitColon_append {p : Str} (r : Str) (hp : ':' ∉ p) :
    splitColon (p ++ ':' :: r) = some (p, r) := by
  induction p with
  | nil => simp [splitColon]
  | cons c cs ih =>
    have hc : c ≠ ':' := fun he => hp (he ▸ List.mem_cons_self c cs)
    simp only [List.cons_append, splitColon, if_neg hc, List.append_eq]
    rw [ih (fun hm => hp (List.mem_cons.mpr (Or.inr hm)))]

theorem urlSchemeSplit_valid {p : Str} (hp : validScheme p = true) (r : Str) :
    urlSchemeSplit (p ++ ':' :: r) = (p.map Char.toLower, r) := by
  have hcolon : ':' ∉ p := fun hm => (schemeChar_not_special (validScheme_mem hp hm)).1 rfl
  unfold urlSchemeSplit
  rw [splitColon_append r hcolon]
  simp [hp]

theorem urlSchemeSplit_http (rest : Str) :
    urlSchemeSplit ("http://".data ++ rest) = ("http".data, '/' :: '/' :: rest) := by
  have h1 : "http://".data ++ rest = "http".data ++ ':' :: ('/' :: '/' :: rest) := rfl
  rw [h1, urlSchemeSplit_valid (by decide)]
  rw [show "http".data.map Char.toLower = "http".data from by decide]

theorem urlSchemeSplit_https (rest : Str) :
    urlSchemeSplit ("https://".data ++ rest) = ("https".data, '/' :: '/' :: rest) := by
  have h1 : "https://".data ++ rest = "https".data ++ ':' :: ('/' :: '/' :: rest) := rfl
  rw [h1, urlSchemeSplit_valid (by decide)]
  rw [show "https".data.map Char.toLower = "https".data from by decide]

theorem url_netloc_http (rest : Str) :
    url_netloc ("http://".data ++ rest) = rest.takeWhile (fun c => !isStopChar c) := by
  unfold url_netloc url_after
  rw [urlSchemeSplit_http]
  simp

theorem url_netloc_https (rest : Str) :
    url_netloc ("https://".data ++ rest) = rest.takeWhile (fun c => !isStopChar c) := by
  unfold url_netloc url_after
  rw [urlSchemeSplit_https]
  simp

/-- The prefixed site string always starts with `"http://"` or `"https://"`. -/
theorem prefixedSite_shape (site : Str) :
    (∃ rest, prefixedSite site = "http://".data ++ rest) ∨
    (∃ rest, prefixedSite site = "https://".data ++ rest) := by
  unfold prefixedSite
  rcases Bool.eq_false_or_eq_true
      ("http://".data.isPrefixOf site || "https://".data.isPrefixOf site) with h | h
  · rw [if_pos h]
    rcases Bool.or_eq_true_iff.mp h with h1 | h1
    · obtain ⟨t, ht⟩ := List.isPrefixOf_iff_prefix.mp h1
      exact Or.inl ⟨t, ht.symm⟩
    · obtain ⟨t, ht⟩ := List.isPrefixOf_iff_prefix.mp h1
      exact Or.inr ⟨t, ht.symm⟩
  · rw [if_neg (by simp [h])]
    exact Or.inr ⟨site, rfl⟩

/-- The scheme of the prefixed site string is `http` or `https`. -/
theorem url_scheme_prefixedSite (site : Str) :
    url_scheme (prefixedSite site) = "http".data ∨
    url_scheme (prefixedSite site) = "https".data := by
  rcases prefixedSite_shape site with ⟨rest, hr⟩ | ⟨rest, hr⟩
  · left
    rw [hr]
    show (urlSchemeSplit ("http://".data ++ rest)).1 = _
    rw [urlSchemeSplit_http]
  · right
    rw [hr]
    show (urlSchemeSplit ("https://".data ++ rest)).1 = _
    rw [urlSchemeSplit_https]

/-! ## Claim C7: idempotence of the URL normalisation -/

/-- C7: the URL normalisation used by the harvester (drop everything from the
first `'#'`, then strip trailing `'/'`) maps every URL that already has no
fragment and no trailing slash to itself. -/
theorem harvester_normalization_idem (s : Str)
    (hnf : '#' ∉ s) (hts : s.getLast? ≠ some '/') :
    normalizeLink s = s := by
  show rstripSlash (splitHashHead s) = s
  rw [splitHashHead_of_no_hash hnf]
  refine rstripSlash_of_last_ne ?_
  intro hl he
  exact hts (by rw [List.getLast?_eq_getLast s hl, he])

theorem harvester_normalization_idem_witness :
    normalizeLink "https://example.com/a-post".data = "https://example.com/a-post".data :=
  harvester_normalization_idem "https://example.com/a-post".data (by decide) (by decide)

/-! ## Claim C10: output filename of the XML pretty-printer -/

/-- C10: the pretty-printer writes to `"pretty_"` prepended to the entire
command-line argument, so a path with a directory component gets the
literal applied to the start of the whole path, not to the base name. -/
theorem prettyxml_output_filename (arg : Str) :
    prettyOutputName arg = "pretty_".data ++ arg ∧
    prettyOutputName "dir/file.xml".data = "pretty_dir/file.xml".data ∧
    prettyOutputName "dir/file.xml".data ≠ "dir/pretty_file.xml".data :=
  ⟨rfl, by decide, by decide⟩

/-! ## Claim C8: norm_site -/

/-- C8 as stated is false: for the raw input `"ftp://example.com"` the bare
network location of the input is `"example.com"`, but `norm_site` prepends
`"https://"` to the whole string (the input does not start with `"http://"` or
`"https://"`) and returns hostname `"ftp:"`. -/
theorem norm_site_counterexample :
    norm_site "ftp://example.com".data = ("https://ftp:".data, "ftp:".data) ∧
    url_netloc "ftp://example.com".data = "example.com".data ∧
    "ftp:".data ≠ "example.com".data := by
  refine ⟨by decide, by decide, by decide⟩

/-- C8 amended: `norm_site` returns a scheme-qualified base URL
`f"{scheme}://{netloc}"` and the hostname, both computed from the *prefixed*
input (the input itself only when it starts with `"http://"` or `"https://"`,
otherwise `"https://"` prepended to the whole input); the scheme is always
`http` or `https`, and is `https` whenever the input lacks one of those two
literal starts. -/
theorem norm_site_spec (site : Str) :
    (norm_site site).1
      = url_scheme (prefixedSite site) ++ ':' :: '/' :: '/' :: (norm_site site).2 ∧
    (url_scheme (prefixedSite site) = "http".data ∨
      url_scheme (prefixedSite site) = "https".data) ∧
    (norm_site site).2 = url_netloc (prefixedSite site) ∧
    (("http://".data.isPrefixOf site || "https://".data.isPrefixOf site) = false →
      prefixedSite site = "https://".data ++ site ∧
      url_scheme (prefixedSite site) = "https".data ∧
      (norm_site site).2 = url_netloc ("https://".data ++ site)) := by
  refine ⟨rfl, url_scheme_prefixedSite site, rfl, ?_⟩
  intro h
  have hps : prefixedSite site = "https://".data ++ site := by
    unfold prefixedSite
    rw [if_neg (by simp [h])]
  refine ⟨hps, ?_, ?_⟩
  · show (urlSchemeSplit (prefixedSite site)).1 = _
    rw [hps, urlSchemeSplit_https]
  · show url_netloc (prefixedSite site) = _
    rw [hps]

theorem norm_site_spec_witness :
    (norm_site "example.com".data).2 = url_netloc (prefixedSite "example.com".data) ∧
    prefixedSite "example.com".data = "https://".data ++ "example.com".data ∧
    url_scheme (prefixedSite "example.com".data) = "https".data :=
  ⟨(norm_site_spec "example.com".data).2.2.1,
   ((norm_site_spec "example.com".data).2.2.2 (by decide)).1,
   ((norm_site_spec "example.com".data).2.2.2 (by decide)).2.1⟩

/-! ## Claim C2: REST client status handling -/

/-- C2: for a first-page response with status `s` (and a well-behaved second
page), `fetch_posts_via_wpcom_api` returns an empty list exactly when `s` is
404 or 401, `fetch_posts_via_site_rest` exactly when `s` is 401, 403 or 404,
and for any other error status (400-599, the statuses `raise_for_status`
treats as errors) both raise an exception carrying the status, which aborts
only this attempt (the caller catches it; see the C1 theorem). -/
theorem rest_client_status_contract (s : Nat) (l : Str) (net : Nat → NetResult)
    (h1 : net 1 = .resp ⟨s, .jsonList [⟨some l⟩]⟩)
    (h2 : net 2 = .resp ⟨200, .jsonList []⟩) :
    (fetch_posts_via_wpcom_api net 2 = .ok [] ↔ (s = 404 ∨ s = 401)) ∧
    (fetch_posts_via_site_rest net 2 = .ok [] ↔ (s = 401 ∨ s = 403 ∨ s = 404)) ∧
    (raiseForStatus s = true → ¬(s = 404 ∨ s = 401) →
      fetch_posts_via_wpcom_api net 2 = .raised (.httpStatus s)) ∧
    (raiseForStatus s = true → ¬(s = 401 ∨ s = 403 ∨ s = 404) →
      fetch_posts_via_site_rest net 2 = .raised (.httpStatus s)) := by
  have heval : ∀ na : Nat → Bool, na 200 = false →
      fetchLoop na net 2 1 [] =
        (if na s then .ok [] else if raiseForStatus s then .raised (.httpStatus s)
         else .ok [⟨some l⟩]) := by
    intro na hna
    show fetchLoop na net (1 + 1) 1 [] = _
    rw [fetchLoop, h1]
    by_cases hs : na s
    · simp [hs]
    · simp only [hs, Bool.false_eq_true, if_false]
      by_cases hr : raiseForStatus s
      · simp [hr]
      · simp only [hr, Bool.false_eq_true, if_false]
        show fetchLoop na net (0 + 1) 2 ([] ++ [⟨some l⟩]) = _
        rw [fetchLoop, h2]
        simp [hna, raiseForStatus]
  have hw := heval (fun s => s == 404 || s == 401) (by decide)
  have hs := heval (fun s => s == 401 || s == 403 || s == 404) (by decide)
  refine ⟨?_, ?_, ?_, ?_⟩
  · rw [fetch_posts_via_wpcom_api, hw]
    by_cases h : (s == 404 || s == 401) = true
    · simp only [h, if_true]
      simp only [Bool.or_eq_true, beq_iff_eq] at h
      simp [h]
    · simp only [h, if_false]
      simp only [Bool.or_eq_true, beq_iff_eq] at h
      push_neg at h
      by_cases hr : raiseForStatus s
      · simp [hr, h]
      · simp [hr, h]
  · rw [fetch_posts_via_site_rest, hs]
    by_cases h : (s == 401 || s == 403 || s == 404) = true
    · simp only [h, if_true]
      simp only [Bool.or_eq_true, beq_iff_eq] at h
      constructor
      · intro _
        tauto
      · intro _
        trivial
    · simp only [h, if_false]
      simp only [Bool.or_eq_true, beq_iff_eq] at h
      push_neg at h
      by_cases hr : raiseForStatus s
      · simp [hr, h]
      · simp [hr, h]
  · intro hr hne
    push_neg at hne
    rw [fetch_posts_via_wpcom_api, hw]
    have : (s == 404 || s == 401) = false := by
      simp [hne.1, hne.2]
    simp [this, hr]
  · intro hr hne
    push_neg at hne
    rw [fetch_posts_via_site_rest, hs]
    have : (s == 401 || s == 403 || s == 404) = false := by
      simp [hne.1, hne.2.1, hne.2.2]
    simp [this, hr]

theorem rest_client_status_contract_witness :
    fetch_posts_via_wpcom_api
      (fun page => if page = 1
        then .resp ⟨500, .jsonList [⟨some "x".data⟩]⟩
        else .resp ⟨200, .jsonList []⟩) 2 = .raised (.httpStatus 500) ∧
    fetch_posts_via_site_rest
      (fun page => if page = 1
        then .resp ⟨500, .jsonList [⟨some "x".data⟩]⟩
        else .resp ⟨200, .jsonList []⟩) 2 = .raised (.httpStatus 500) := by
  have h := rest_client_status_contract 500 "x".data
    (fun page => if page = 1
      then .resp ⟨500, .jsonList [⟨some "x".data⟩]⟩
      else .resp ⟨200, .jsonList []⟩) rfl rfl
  exact ⟨h.2.2.1 (by decide) (by decide), h.2.2.2 (by decide) (by decide)⟩

/-! ## Orchestrator lemmas -/

theorem harvest_eq_tier1 (site : Str) (netW netS : Nat → NetResult)
    (uj : Str → Str → Str) (home : Option HtmlPage) (net1 net2 : Nat → Option HtmlPage)
    (fuel : Nat) (ps : List Post) (out : List Str)
    (hw : fetch_posts_via_wpcom_api netW fuel = .ok ps) (hne : ps.isEmpty = false)
    (hl : tierLinks ps = some out) :
    harvest_all_post_links site netW netS uj home net1 net2 fuel = some (out, []) := by
  simp only [harvest_all_post_links]
  rw [hw]
  simp [hne, hl]

theorem harvest_eq_tier2 (site : Str) (netW netS : Nat → NetResult)
    (uj : Str → Str → Str) (home : Option HtmlPage) (net1 net2 : Nat → Option HtmlPage)
    (fuel : Nat) (ps : List Post) (out : List Str)
    (hw : fetch_posts_via_wpcom_api netW fuel = .ok [])
    (hs : fetch_posts_via_site_rest netS fuel = .ok ps) (hne : ps.isEmpty = false)
    (hl : tierLinks ps = some out) :
    harvest_all_post_links site netW netS uj home net1 net2 fuel = some (out, []) := by
  simp only [harvest_all_post_links]
  rw [hw, hs]
  simp [hne, hl]

theorem harvest_eq_tier3 (site : Str) (netW netS : Nat → NetResult)
    (uj : Str → Str → Str) (home : Option HtmlPage) (net1 net2 : Nat → Option HtmlPage)
    (fuel : Nat)
    (hw : fetch_posts_via_wpcom_api netW fuel = .ok [])
    (hs : fetch_posts_via_site_rest netS fuel = .ok []) :
    harvest_all_post_links site netW netS uj home net1 net2 fuel =
      some (scrape_posts_from_paged_lists (norm_site site).1 uj home net1 net2 2,
        [Warn.fallbackInfo]) := by
  simp only [harvest_all_post_links]
  rw [hw, hs]
  simp

theorem harvest_tier1_exn (site : Str) (netW netW' netS : Nat → NetResult)
    (uj : Str → Str → Str) (home : Option HtmlPage) (net1 net2 : Nat → Option HtmlPage)
    (fuel : Nat) (e : FetchError)
    (hw : fetch_posts_via_wpcom_api netW fuel = .raised e)
    (hw' : fetch_posts_via_wpcom_api netW' fuel = .ok []) :
    harvest_all_post_links site netW netS uj home net1 net2 fuel =
      (harvest_all_post_links site netW' netS uj home net1 net2 fuel).map
        (fun pr => (pr.1, Warn.wpcomFailed (.fetchExn e) :: pr.2)) := by
  simp only [harvest_all_post_links]
  rw [hw, hw']
  simp only [List.isEmpty_nil, if_true]
  cases hfs : fetch_posts_via_site_rest netS fuel with
  | hang => simp
  | raised e2 => simp
  | ok ps =>
    by_cases hne : ps.isEmpty
    · simp [hne]
    · cases hl : tierLinks ps with
      | none => simp [hne, hl]
      | some out => simp [hne, hl]

theorem harvest_tier2_exn (site : Str) (netW netS netS' : Nat → NetResult)
    (uj : Str → Str → Str) (home : Option HtmlPage) (net1 net2 : Nat → Option HtmlPage)
    (fuel : Nat) (e : FetchError)
    (hw : fetch_posts_via_wpcom_api netW fuel = .ok [])
    (hs : fetch_posts_via_site_rest netS fuel = .raised e)
    (hs' : fetch_posts_via_site_rest netS' fuel = .ok []) :
    harvest_all_post_links site netW netS uj home net1 net2 fuel =
      (harvest_all_post_links site netW netS' uj home net1 net2 fuel).map
        (fun pr => (pr.1, Warn.siteRestFailed (.fetchExn e) :: pr.2)) := by
  simp only [harvest_all_post_links]
  rw [hw, hs, hs']
  simp

/-! ## Claim C1: fallback order and exception handling of the orchestrator -/

/-- C1: `harvest_all_post_links` tries the WordPress.com client, then the
self-hosted REST client, then the HTML scraper, in that order, returning the
result of the first tier yielding a non-empty collection; an exception raised
by tier 1 or tier 2 only appends a warning to the stderr transcript (conjuncts
four and five: compared with the same run in which the failing tier returned
an empty result, the returned link list is identical and the warning is the
sole difference), the next tier still runs, and no exception escapes. -/
theorem harvest_fallback_contract (site : Str) (netW netS : Nat → NetResult)
    (uj : Str → Str → Str) (home : Option HtmlPage) (net1 net2 : Nat → Option HtmlPage)
    (fuel : Nat) :
    (∀ ps out, fetch_posts_via_wpcom_api netW fuel = .ok ps → ps.isEmpty = false →
      tierLinks ps = some out →
      harvest_all_post_links site netW netS uj home net1 net2 fuel = some (out, [])) ∧
    (∀ ps out, fetch_posts_via_wpcom_api netW fuel = .ok [] →
      fetch_posts_via_site_rest netS fuel = .ok ps → ps.isEmpty = false →
      tierLinks ps = some out →
      harvest_all_post_links site netW netS uj home net1 net2 fuel = some (out, [])) ∧
    (fetch_posts_via_wpcom_api netW fuel = .ok [] →
      fetch_posts_via_site_rest netS fuel = .ok [] →
      harvest_all_post_links site netW netS uj home net1 net2 fuel =
        some (scrape_posts_from_paged_lists (norm_site site).1 uj home net1 net2 2,
          [Warn.fallbackInfo])) ∧
    (∀ e (netW' : Nat → NetResult), fetch_posts_via_wpcom_api netW fuel = .raised e →
      fetch_posts_via_wpcom_api netW' fuel = .ok [] →
      harvest_all_post_links site netW netS uj home net1 net2 fuel =
        (harvest_all_post_links site netW' netS uj home net1 net2 fuel).map
          (fun pr => (pr.1, Warn.wpcomFailed (.fetchExn e) :: pr.2))) ∧
    (∀ e (netS' : Nat → NetResult), fetch_posts_via_wpcom_api netW fuel = .ok [] →
      fetch_posts_via_site_rest netS fuel = .raised e →
      fetch_posts_via_site_rest netS' fuel = .ok [] →
      harvest_all_post_links site netW netS uj home net1 net2 fuel =
        (harvest_all_post_links site netW netS' uj home net1 net2 fuel).map
          (fun pr => (pr.1, Warn.siteRestFailed (.fetchExn e) :: pr.2))) := by
  refine ⟨?_, ?_, ?_, ?_, ?_⟩
  · intro ps out hw hne hl
    exact harvest_eq_tier1 site netW netS uj home net1 net2 fuel ps out hw hne hl
  · intro ps out hw hs hne hl
    exact harvest_eq_tier2 site netW netS uj home net1 net2 fuel ps out hw hs hne hl
  · intro hw hs
    exact harvest_eq_tier3 site netW netS uj home net1 net2 fuel hw hs
  · intro e netW' hw hw'
    exact harvest_tier1_exn site netW netW' netS uj home net1 net2 fuel e hw hw'
  · intro e netS' hw hs hs'
    exact harvest_tier2_exn site netW netS netS' uj home net1 net2 fuel e hw hs hs'

theorem harvest_fallback_contract_witness :
    harvest_all_post_links "b.example".data (fun _ => .resp ⟨404, .jsonList []⟩)
      (fun _ => .resp ⟨403, .jsonList []⟩) (fun _ h => h) none
      (fun _ => none) (fun _ => none) 1 =
      some (scrape_posts_from_paged_lists (norm_site "b.example".data).1 (fun _ h => h)
        none (fun _ => none) (fun _ => none) 2, [Warn.fallbackInfo]) :=
  (harvest_fallback_contract "b.example".data (fun _ => .resp ⟨404, .jsonList []⟩)
    (fun _ => .resp ⟨403, .jsonList []⟩) (fun _ h => h) none
    (fun _ => none) (fun _ => none) 1).2.2.1 (by decide) (by decide)

theorem length_insertSorted_grows (x : Str) : ∀ (l : List Str),
    l.length ≤ (insertSorted x l).length := by
  intro l
  induction l with
  | nil => simp [insertSorted]
  | cons y ys ih =>
    rcases (Bool.eq_false_or_eq_true (lexLt x y)).symm with h1 | h1
    · by_cases h2 : x = y
      · subst h2
        rw [insertSorted_cons_self]
      · rw [insertSorted_cons_gt ys h1 h2]
        simpa using ih
    · rw [insertSorted_cons_lt ys h1]
      simp

/-! ## Scraper lemmas -/

theorem stepCandidate_spec (base : Str) (uj : Str → Str → Str) (links : List Str) :
    ∀ oh : Option Str,
    stepCandidate base uj links oh = links ∨
    ∃ h', rstripSlash (url_scheme h' ++ ':' :: '/' :: '/' :: url_netloc h') = rstripSlash base ∧
      stepCandidate base uj links oh = insertSorted (normalizeLink h') links
  | none => Or.inl rfl
  | some [] => Or.inl rfl
  | some (c :: cs) => by
    by_cases hck : rstripSlash (url_scheme (if url_scheme (c :: cs) = [] then uj base (c :: cs)
        else c :: cs) ++ ':' :: '/' :: '/' ::
        url_netloc (if url_scheme (c :: cs) = [] then uj base (c :: cs) else c :: cs))
        = rstripSlash base
    · right
      refine ⟨if url_scheme (c :: cs) = [] then uj base (c :: cs) else c :: cs, hck, ?_⟩
      simp only [stepCandidate]
      rw [if_pos hck]
    · left
      simp only [stepCandidate]
      rw [if_neg hck]

theorem stepCandidate_sorted (base : Str) (uj : Str → Str → Str) (links : List Str)
    (oh : Option Str) (hs : StrSorted links) : StrSorted (stepCandidate base uj links oh) := by
  rcases stepCandidate_spec base uj links oh with h | ⟨h', _, h⟩
  · rw [h]; exact hs
  · rw [h]; exact insertSorted_sorted _ _ hs

theorem stepCandidate_len (base : Str) (uj : Str → Str → Str) (links : List Str)
    (oh : Option Str) : links.length ≤ (stepCandidate base uj links oh).length := by
  rcases stepCandidate_spec base uj links oh with h | ⟨h', _, h⟩
  · rw [h]
  · rw [h]; exact length_insertSorted_grows _ _

theorem stepCandidate_mem (base : Str) (uj : Str → Str → Str) (links : List Str)
    (oh : Option Str) (x : Str) (hx : x ∈ stepCandidate base uj links oh) :
    x ∈ links ∨ ∃ h', rstripSlash (url_scheme h' ++ ':' :: '/' :: '/' :: url_netloc h')
      = rstripSlash base ∧ x = normalizeLink h' := by
  rcases stepCandidate_spec base uj links oh with h | ⟨h', hck, h⟩
  · rw [h] at hx; exact Or.inl hx
  · rw [h] at hx
    rcases (mem_insertSorted _ _ _).mp hx with he | hm
    · exact Or.inr ⟨h', hck, he⟩
    · exact Or.inl hm

theorem stepCandidate_dich (base : Str) (uj : Str → Str → Str) (links : List Str)
    (oh : Option Str) (hs : StrSorted links) :
    stepCandidate base uj links oh = links ∨
      links.length < (stepCandidate base uj links oh).length := by
  rcases stepCandidate_spec base uj links oh with h | ⟨h', _, h⟩
  · exact Or.inl h
  · rw [h]
    by_cases hm : normalizeLink h' ∈ links
    · exact Or.inl (insertSorted_of_mem _ _ hs hm)
    · right
      rw [length_insertSorted_of_not_mem _ _ hm]
      omega

theorem extract_links_sorted (base : Str) (uj : Str → Str → Str) :
    ∀ (cands : HtmlPage) (links : List Str), StrSorted links →
      StrSorted (extract_links base uj cands links) := by
  intro cands
  induction cands with
  | nil => intro links hs; exact hs
  | cons c cs ih =>
    intro links hs
    exact ih _ (stepCandidate_sorted base uj links c hs)

theorem extract_links_len (base : Str) (uj : Str → Str → Str) :
    ∀ (cands : HtmlPage) (links : List Str),
      links.length ≤ (extract_links base uj cands links).length := by
  intro cands
  induction cands with
  | nil => intro links; exact Nat.le_refl _
  | cons c cs ih =>
    intro links
    exact Nat.le_trans (stepCandidate_len base uj links c) (ih _)

theorem extract_links_mem (base : Str) (uj : Str → Str → Str) :
    ∀ (cands : HtmlPage) (links : List Str) (x : Str),
      x ∈ extract_links base uj cands links →
      x ∈ links ∨ ∃ h', rstripSlash (url_scheme h' ++ ':' :: '/' :: '/' :: url_netloc h')
        = rstripSlash base ∧ x = normalizeLink h' := by
  intro cands
  induction cands with
  | nil => intro links x hx; exact Or.inl hx
  | cons c cs ih =>
    intro links x hx
    rcases ih _ x hx with hm | hgood
    · exact stepCandidate_mem base uj links c x hm
    · exact Or.inr hgood

theorem extract_links_dich (base : Str) (uj : Str → Str → Str) :
    ∀ (cands : HtmlPage) (links : List Str), StrSorted links →
      extract_links base uj cands links = links ∨
        links.length < (extract_links base uj cands links).length := by
  intro cands
  induction cands with
  | nil => intro links _; exact Or.inl rfl
  | cons c cs ih =>
    intro links hs
    rcases stepCandidate_dich base uj links c hs with h | h
    · have heq : extract_links base uj (c :: cs) links = extract_links base uj cs links := by
        show extract_links base uj cs (stepCandidate base uj links c) = _
        rw [h]
      rw [heq]
      exact ih links hs
    · right
      exact Nat.lt_of_lt_of_le h (extract_links_len base uj cs _)

theorem pageHarvest_sorted (base : Str) (uj : Str → Str → Str)
    (net1 net2 : Nat → Option HtmlPage) (links : List Str) (page : Nat)
    (hs : StrSorted links) : StrSorted (pageHarvest base uj net1 net2 links page) := by
  unfold pageHarvest
  have hl1 : StrSorted (match net1 page with
      | some html => extract_links base uj html links
      | none => links) := by
    cases net1 page with
    | some html => exact extract_links_sorted base uj html links hs
    | none => exact hs
  by_cases hgrow : links.length < (match net1 page with
      | some html => extract_links base uj html links
      | none => links).length
  · simp only [hgrow, if_true]
    exact hl1
  · simp only [hgrow, if_false]
    cases net2 page with
    | some html => exact extract_links_sorted base uj html _ hl1
    | none => exact hl1

theorem pageHarvest_mem (base : Str) (uj : Str → Str → Str)
    (net1 net2 : Nat → Option HtmlPage) (links : List Str) (page : Nat) (x : Str)
    (hx : x ∈ pageHarvest base uj net1 net2 links page) :
    x ∈ links ∨ ∃ h', rstripSlash (url_scheme h' ++ ':' :: '/' :: '/' :: url_netloc h')
      = rstripSlash base ∧ x = normalizeLink h' := by
  unfold pageHarvest at hx
  by_cases hgrow : links.length < (match net1 page with
      | some html => extract_links base uj html links
      | none => links).length
  · simp only [hgrow, if_true] at hx
    cases hn : net1 page with
    | some html =>
      rw [hn] at hx
      exact extract_links_mem base uj html links x hx
    | none =>
      rw [hn] at hx
      exact Or.inl hx
  · simp only [hgrow, if_false] at hx
    have step1 : ∀ y, y ∈ (match net1 page with
        | some html => extract_links base uj html links
        | none => links) → y ∈ links ∨ ∃ h',
          rstripSlash (url_scheme h' ++ ':' :: '/' :: '/' :: url_netloc h')
            = rstripSlash base ∧ y = normalizeLink h' := by
      intro y hy
      cases hn : net1 page with
      | some html =>
        rw [hn] at hy
        exact extract_links_mem base uj html links y hy
      | none =>
        rw [hn] at hy
        exact Or.inl hy
    cases hn2 : net2 page with
    | some html =>
      rw [hn2] at hx
      rcases extract_links_mem base uj html _ x hx with hm | hgood
      · exact step1 x hm
      · exact Or.inr hgood
    | none =>
      rw [hn2] at hx
      exact step1 x hx

theorem pageHarvest_dich (base : Str) (uj : Str → Str → Str)
    (net1 net2 : Nat → Option HtmlPage) (links : List Str) (page : Nat)
    (hs : StrSorted links) :
    pageHarvest base uj net1 net2 links page = links ∨
      links.length < (pageHarvest base uj net1 net2 links page).length := by
  unfold pageHarvest
  by_cases hgrow : links.length < (match net1 page with
      | some html => extract_links base uj html links
      | none => links).length
  · rw [if_pos hgrow]
    exact Or.inr hgrow
  · rw [if_neg hgrow]
    have hl1 : (match net1 page with
        | some html => extract_links base uj html links
        | none => links) = links := by
      cases hn : net1 page with
      | some html =>
        rw [hn] at hgrow
        rcases extract_links_dich base uj html links hs with h | h
        · exact h
        · exact absurd h hgrow
      | none => rfl
    rw [hl1]
    cases net2 page with
    | some html => exact extract_links_dich base uj html links hs
    | none => exact Or.inl rfl

/-! ## Pagination loop lemmas -/

theorem scrapeLoop_invariant (base : Str) (uj : Str → Str → Str)
    (net1 net2 : Nat → Option HtmlPage) (maxEmpty : Nat) (P : List Str → Prop)
    (hstep : ∀ l p, P l → P (pageHarvest base uj net1 net2 l p)) :
    ∀ links streak page, P links →
      P (scrapeLoop base uj net1 net2 maxEmpty links streak page).1 := by
  intro links streak page
  induction links, streak, page using scrapeLoop.induct base uj net1 net2 maxEmpty with
  | case1 l s p h1 h2 =>
    intro hp
    rw [scrapeLoop, if_pos h1, if_pos h2]
    exact hstep l p hp
  | case2 l s p h1 links' streak' h2 ih =>
    intro hp
    rw [scrapeLoop, if_pos h1, if_neg h2]
    exact ih (hstep l p hp)
  | case3 l s p h =>
    intro hp
    rw [scrapeLoop, if_neg h]
    exact hp

theorem scrapeLoop_page_le (base : Str) (uj : Str → Str → Str)
    (net1 net2 : Nat → Option HtmlPage) (maxEmpty : Nat) :
    ∀ links streak page, page ≤ 2000 →
      (scrapeLoop base uj net1 net2 maxEmpty links streak page).2 ≤ 2001 := by
  intro links streak page
  induction links, streak, page using scrapeLoop.induct base uj net1 net2 maxEmpty with
  | case1 l s p h1 h2 =>
    intro hp
    rw [scrapeLoop, if_pos h1, if_pos h2]
    show p + 1 ≤ 2001
    omega
  | case2 l s p h1 links' streak' h2 ih =>
    intro hp
    rw [scrapeLoop, if_pos h1, if_neg h2]
    exact ih (by omega)
  | case3 l s p h =>
    intro hp
    rw [scrapeLoop, if_neg h]
    show p ≤ 2001
    omega

theorem scrapeLoop_stop (base : Str) (uj : Str → Str → Str)
    (net1 net2 : Nat → Option HtmlPage) :
    ∀ (k maxEmpty streak page : Nat) (links : List Str), streak + k = maxEmpty →
      page + k ≤ 2001 →
      (∀ j, j < k → pageHarvest base uj net1 net2 links (page + j) = links) →
      scrapeLoop base uj net1 net2 maxEmpty links streak page = (links, page + k) := by
  intro k
  induction k with
  | zero =>
    intro m streak page links hk hp hnolink
    rw [scrapeLoop, if_neg (by omega)]
    rfl
  | succ k ih =>
    intro m streak page links hk hp hnolink
    have h1 : streak < m := by omega
    rw [scrapeLoop, if_pos h1]
    have hph : pageHarvest base uj net1 net2 links page = links := by
      have := hnolink 0 (by omega)
      simpa using this
    by_cases hbreak : 2000 < page + 1
    · rw [if_pos hbreak]
      have hk0 : k = 0 := by omega
      subst hk0
      show (pageHarvest base uj net1 net2 links page, page + 1) = (links, page + (0 + 1))
      rw [hph]
    · rw [if_neg hbreak]
      have hlen : ¬ links.length < (pageHarvest base uj net1 net2 links page).length := by
        rw [hph]
        omega
      show scrapeLoop base uj net1 net2 m (pageHarvest base uj net1 net2 links page)
        (if links.length < (pageHarvest base uj net1 net2 links page).length then 0
          else streak + 1) (page + 1) = _
      rw [if_neg hlen, hph]
      have hnolink' : ∀ j, j < k → pageHarvest base uj net1 net2 links (page + 1 + j) = links := by
        intro j hj
        have harith : page + 1 + j = page + (j + 1) := by omega
        rw [harith]
        exact hnolink (j + 1) (by omega)
      rw [ih m (streak + 1) (page + 1) links (by omega) (by omega) hnolink']
      have harith2 : page + 1 + k = page + (k + 1) := by omega
      rw [harith2]

/-! ## Claim C5: termination of the pagination loop -/

/-- C5: the pagination loop stops in every case once the page counter exceeds
2000 (first conjunct: from any start page within range the final counter never
exceeds 2001), and it stops as soon as the remaining `max_empty - streak`
consecutive pages yield no new links, returning the link set unchanged after
advancing exactly that many pages (second conjunct).  The third conjunct
instantiates this to `scrape_posts_from_paged_lists` with the default
`max_empty = 2`: when pages 1 and 2 yield nothing new, the result is exactly
the homepage harvest. -/
theorem scraper_loop_termination (base : Str) (uj : Str → Str → Str)
    (net1 net2 : Nat → Option HtmlPage) :
    (∀ maxEmpty links streak page, page ≤ 2000 →
      (scrapeLoop base uj net1 net2 maxEmpty links streak page).2 ≤ 2001) ∧
    (∀ maxEmpty streak page (links : List Str), streak ≤ maxEmpty →
      page + (maxEmpty - streak) ≤ 2001 → StrSorted links →
      (∀ j, j < maxEmpty - streak →
        ¬ links.length < (pageHarvest base uj net1 net2 links (page + j)).length) →
      scrapeLoop base uj net1 net2 maxEmpty links streak page
        = (links, page + (maxEmpty - streak))) ∧
    (∀ (home : Option HtmlPage) (links0 : List Str),
      links0 = (match home with
        | some html => extract_links base uj html []
        | none => []) →
      (∀ j, j < 2 →
        ¬ links0.length < (pageHarvest base uj net1 net2 links0 (1 + j)).length) →
      scrape_posts_from_paged_lists base uj home net1 net2 2 = links0) := by
  have hstop : ∀ maxEmpty streak page (links : List Str), streak ≤ maxEmpty →
      page + (maxEmpty - streak) ≤ 2001 → StrSorted links →
      (∀ j, j < maxEmpty - streak →
        ¬ links.length < (pageHarvest base uj net1 net2 links (page + j)).length) →
      scrapeLoop base uj net1 net2 maxEmpty links streak page
        = (links, page + (maxEmpty - streak)) := by
    intro maxEmpty streak page links hsm hple hs hno
    have heq : ∀ j, j < maxEmpty - streak →
        pageHarvest base uj net1 net2 links (page + j) = links := by
      intro j hj
      rcases pageHarvest_dich base uj net1 net2 links (page + j) hs with h | h
      · exact h
      · exact absurd h (hno j hj)
    exact scrapeLoop_stop base uj net1 net2 (maxEmpty - streak) maxEmpty streak page links
      (by omega) hple heq
  refine ⟨?_, hstop, ?_⟩
  · intro maxEmpty links streak page hp
    exact scrapeLoop_page_le base uj net1 net2 maxEmpty links streak page hp
  · intro home links0 hl0 hno
    have hs0 : StrSorted links0 := by
      rw [hl0]
      cases home with
      | some html => exact extract_links_sorted base uj html [] (by simp [StrSorted])
      | none => simp [StrSorted]
    have := hstop 2 0 1 links0 (by omega) (by omega) hs0 (by simpa using hno)
    unfold scrape_posts_from_paged_lists
    rw [← hl0]
    show (scrapeLoop base uj net1 net2 2 links0 0 1).1 = links0
    rw [this]

theorem scraper_loop_termination_witness :
    scrape_posts_from_paged_lists "https://e.example".data (fun _ h => h) none
      (fun _ => none) (fun _ => none) 2 = [] :=
  (scraper_loop_termination "https://e.example".data (fun _ h => h)
      (fun _ => none) (fun _ => none)).2.2 none [] rfl (by decide)

/-! ## Canonical form of scraper and harvester output -/

theorem scrape_posts_canonical (base : Str) (uj : Str → Str → Str)
    (home : Option HtmlPage) (net1 net2 : Nat → Option HtmlPage) (m : Nat) :
    StrSorted (scrape_posts_from_paged_lists base uj home net1 net2 m) ∧
    ∀ x ∈ scrape_posts_from_paged_lists base uj home net1 net2 m,
      ∃ h', rstripSlash (url_scheme h' ++ ':' :: '/' :: '/' :: url_netloc h')
        = rstripSlash base ∧ x = normalizeLink h' := by
  have hP := scrapeLoop_invariant base uj net1 net2 m
    (fun l => StrSorted l ∧ ∀ x ∈ l,
      ∃ h', rstripSlash (url_scheme h' ++ ':' :: '/' :: '/' :: url_netloc h')
        = rstripSlash base ∧ x = normalizeLink h')
    (by
      intro l p hl
      refine ⟨pageHarvest_sorted base uj net1 net2 l p hl.1, ?_⟩
      intro x hx
      rcases pageHarvest_mem base uj net1 net2 l p x hx with hm | hgood
      · exact hl.2 x hm
      · exact hgood)
  have hl0 : StrSorted (match home with
      | some html => extract_links base uj html []
      | none => []) ∧ ∀ x ∈ (match home with
      | some html => extract_links base uj html []
      | none => []),
      ∃ h', rstripSlash (url_scheme h' ++ ':' :: '/' :: '/' :: url_netloc h')
        = rstripSlash base ∧ x = normalizeLink h' := by
    cases home with
    | some html =>
      refine ⟨extract_links_sorted base uj html [] (by simp [StrSorted]), ?_⟩
      intro x hx
      rcases extract_links_mem base uj html [] x hx with hm | hgood
      · simp at hm
      · exact hgood
    | none => exact ⟨by simp [StrSorted], by simp⟩
  exact hP _ 0 1 hl0

theorem harvest_out_cases (site : Str) (netW netS : Nat → NetResult)
    (uj : Str → Str → Str) (home : Option HtmlPage) (net1 net2 : Nat → Option HtmlPage)
    (fuel : Nat) (out : List Str) (w : List Warn)
    (h : harvest_all_post_links site netW netS uj home net1 net2 fuel = some (out, w)) :
    (∃ ls : List Str, out = sortDedup (ls.map normalizeLink)) ∨
    out = scrape_posts_from_paged_lists (norm_site site).1 uj home net1 net2 2 := by
  simp only [harvest_all_post_links] at h
  have tier2case : ∀ w0 : List Warn,
      (match fetch_posts_via_site_rest netS fuel with
        | .hang => none
        | .raised e => some (scrape_posts_from_paged_lists (norm_site site).1 uj home net1 net2 2,
            (w0 ++ [Warn.siteRestFailed (.fetchExn e)]) ++ [Warn.fallbackInfo])
        | .ok ps =>
          if ps.isEmpty then
            some (scrape_posts_from_paged_lists (norm_site site).1 uj home net1 net2 2,
              w0 ++ [Warn.fallbackInfo])
          else
            match tierLinks ps with
            | none => some (scrape_posts_from_paged_lists (norm_site site).1 uj home net1 net2 2,
                (w0 ++ [Warn.siteRestFailed .keyError]) ++ [Warn.fallbackInfo])
            | some o => some (o, w0)) = some (out, w) →
      (∃ ls : List Str, out = sortDedup (ls.map normalizeLink)) ∨
      out = scrape_posts_from_paged_lists (norm_site site).1 uj home net1 net2 2 := by
    intro w0 h2
    cases hS : fetch_posts_via_site_rest netS fuel with
    | hang => rw [hS] at h2; simp at h2
    | raised e =>
      rw [hS] at h2
      simp only [Option.some.injEq, Prod.mk.injEq] at h2
      exact Or.inr h2.1.symm
    | ok ps =>
      rw [hS] at h2
      simp only [] at h2
      by_cases hne : ps.isEmpty
      · rw [if_pos hne] at h2
        simp only [Option.some.injEq, Prod.mk.injEq] at h2
        exact Or.inr h2.1.symm
      · rw [if_neg hne] at h2
        cases hpl : postLinks ps with
        | none =>
          rw [show tierLinks ps = none from by simp [tierLinks, hpl]] at h2
          simp only [Option.some.injEq, Prod.mk.injEq] at h2
          exact Or.inr h2.1.symm
        | some ls =>
          rw [show tierLinks ps = some (sortDedup (ls.map normalizeLink)) from
            by simp [tierLinks, hpl]] at h2
          simp only [Option.some.injEq, Prod.mk.injEq] at h2
          exact Or.inl ⟨ls, h2.1.symm⟩
  cases hW : fetch_posts_via_wpcom_api netW fuel with
  | hang => rw [hW] at h; simp at h
  | raised e =>
    rw [hW] at h
    simp only [] at h
    exact tier2case [Warn.wpcomFailed (.fetchExn e)] h
  | ok ps =>
    rw [hW] at h
    simp only [] at h
    by_cases hne : ps.isEmpty
    · rw [if_pos hne] at h
      exact tier2case [] h
    · rw [if_neg hne] at h
      cases hpl : postLinks ps with
      | none =>
        rw [show tierLinks ps = none from by simp [tierLinks, hpl]] at h
        exact tier2case [Warn.wpcomFailed .keyError] h
      | some ls =>
        rw [show tierLinks ps = some (sortDedup (ls.map normalizeLink)) from
          by simp [tierLinks, hpl]] at h
        simp only [Option.some.injEq, Prod.mk.injEq] at h
        exact Or.inl ⟨ls, h.1.symm⟩

/-! ## Claim C3: the returned link sequence is canonical -/

/-- C3: every link list returned by `harvest_all_post_links` is lexically
sorted, duplicate-free, and every element is normalized (a fixed point of the
fragment/trailing-slash normalisation); when the WordPress.com tier succeeds,
the output is exactly the deduplicated, normalized, lexically sorted set of the
`link` fields of the posts that API returned. -/
theorem harvest_output_canonical (site : Str) (netW netS : Nat → NetResult)
    (uj : Str → Str → Str) (home : Option HtmlPage) (net1 net2 : Nat → Option HtmlPage)
    (fuel : Nat) (out : List Str) (w : List Warn)
    (h : harvest_all_post_links site netW netS uj home net1 net2 fuel = some (out, w)) :
    StrSorted out ∧ out.Nodup ∧ (∀ l ∈ out, normalizeLink l = l) ∧
    (∀ ps ls, fetch_posts_via_wpcom_api netW fuel = .ok ps → ps.isEmpty = false →
      postLinks ps = some ls → out = sortDedup (ls.map normalizeLink)) := by
  have hmain : StrSorted out ∧ (∀ l ∈ out, normalizeLink l = l) := by
    rcases harvest_out_cases site netW netS uj home net1 net2 fuel out w h with
      ⟨ls, hout⟩ | hout
    · subst hout
      refine ⟨sortDedup_sorted _, ?_⟩
      intro l hl
      rcases List.mem_map.mp ((mem_sortDedup l _).mp hl) with ⟨y, _, hy⟩
      rw [← hy]
      exact normalizeLink_idem y
    · subst hout
      obtain ⟨hs, hm⟩ := scrape_posts_canonical (norm_site site).1 uj home net1 net2 2
      refine ⟨hs, ?_⟩
      intro l hl
      obtain ⟨h', _, hl'⟩ := hm l hl
      rw [hl']
      exact normalizeLink_idem h'
  refine ⟨hmain.1, strSorted_nodup hmain.1, hmain.2, ?_⟩
  intro ps ls hW hne hpl
  have heq := harvest_eq_tier1 site netW netS uj home net1 net2 fuel ps
    (sortDedup (ls.map normalizeLink)) hW hne (by simp [tierLinks, hpl])
  rw [heq] at h
  simp only [Option.some.injEq, Prod.mk.injEq] at h
  exact h.1.symm

theorem harvest_output_canonical_witness :
    StrSorted ["https://e/a".data, "https://e/b".data] ∧
    (∀ l ∈ ["https://e/a".data, "https://e/b".data], normalizeLink l = l) ∧
    ["https://e/a".data, "https://e/b".data] =
      sortDedup (["https://e/b".data, "https://e/a".data].map normalizeLink) := by
  have h := harvest_output_canonical "e.example".data
    (fun page => if page = 1
      then .resp ⟨200, .jsonList [⟨some "https://e/b".data⟩, ⟨some "https://e/a".data⟩]⟩
      else .resp ⟨200, .jsonList []⟩)
    (fun _ => .resp ⟨404, .jsonList []⟩) (fun _ h => h) none (fun _ => none) (fun _ => none)
    2 ["https://e/a".data, "https://e/b".data] [] (by decide)
  refine ⟨h.1, h.2.2.1, ?_⟩
  exact h.2.2.2 [⟨some "https://e/b".data⟩, ⟨some "https://e/a".data⟩]
    ["https://e/b".data, "https://e/a".data] (by decide) (by decide) (by decide)

/-! ## Claim C6: empty harvest writes a header-only CSV and reports 0 -/

/-- C6: when every fallback tier produces zero links, the program terminates
normally: `write_csv` produces a file holding only the header row `url`, and
main prints a count of 0 on stdout. -/
theorem empty_harvest_csv (prog site : Str) (netW netS : Nat → NetResult)
    (uj : Str → Str → Str) (home : Option HtmlPage) (net1 net2 : Nat → Option HtmlPage)
    (fuel : Nat) (w : List Warn)
    (h : harvest_all_post_links site netW netS uj home net1 net2 fuel = some ([], w)) :
    write_csv [] = "url".data ++ ['\r', '\n'] ∧
    main_run [prog, site] netW netS uj home net1 net2 fuel =
      some (.success ("url".data ++ ['\r', '\n'])
        "Found 0 posts. Wrote post_links.csv".data w) := by
  constructor
  · simp [write_csv]
  · simp only [main_run]
    rw [h]
    have hcsv : write_csv [] = "url".data ++ ['\r', '\n'] := by simp [write_csv]
    have hmsg : foundMessage ([] : List Str).length
        = "Found 0 posts. Wrote post_links.csv".data := by decide
    show some (MainResult.success (write_csv []) (foundMessage ([] : List Str).length) w) = _
    rw [hcsv, hmsg]

theorem empty_harvest_csv_witness :
    main_run ["prog".data, "c.example".data] (fun _ => .resp ⟨404, .jsonList []⟩)
      (fun _ => .resp ⟨404, .jsonList []⟩) (fun _ h => h) none
      (fun _ => none) (fun _ => none) 1 =
      some (.success ("url".data ++ ['\r', '\n'])
        "Found 0 posts. Wrote post_links.csv".data [Warn.fallbackInfo]) := by
  have hscrape : scrape_posts_from_paged_lists (norm_site "c.example".data).1
      (fun _ h => h) none (fun _ => none) (fun _ => none) 2 = [] := by
    have h2 := scrapeLoop_stop (norm_site "c.example".data).1 (fun _ h => h)
      (fun _ => none) (fun _ => none) 2 2 0 1 [] (by omega) (by omega) (fun j hj => rfl)
    unfold scrape_posts_from_paged_lists
    show (scrapeLoop (norm_site "c.example".data).1 (fun _ h => h)
      (fun _ => none) (fun _ => none) 2 [] 0 1).1 = []
    rw [h2]
  have hharv : harvest_all_post_links "c.example".data (fun _ => .resp ⟨404, .jsonList []⟩)
      (fun _ => .resp ⟨404, .jsonList []⟩) (fun _ h => h) none
      (fun _ => none) (fun _ => none) 1 = some ([], [Warn.fallbackInfo]) := by
    have h3 := harvest_eq_tier3 "c.example".data (fun _ => .resp ⟨404, .jsonList []⟩)
      (fun _ => .resp ⟨404, .jsonList []⟩) (fun _ h => h) none
      (fun _ => none) (fun _ => none) 1 (by decide) (by decide)
    rw [h3, hscrape]
  exact (empty_harvest_csv "prog".data "c.example".data (fun _ => .resp ⟨404, .jsonList []⟩)
    (fun _ => .resp ⟨404, .jsonList []⟩) (fun _ h => h) none
    (fun _ => none) (fun _ => none) 1 [Warn.fallbackInfo] hharv).2

/-! ## Same-origin analysis: character and scheme facts -/

theorem rstripSlash_of_getLast? {s : Str} (h : ∀ c, s.getLast? = some c → c ≠ '/') :
    rstripSlash s = s := by
  refine rstripSlash_of_last_ne ?_
  intro hl
  exact h _ (List.getLast?_eq_getLast s hl)

theorem char_ofNat_toNat_lower (m : Nat) (h1 : 97 ≤ m) (h2 : m ≤ 122) :
    (Char.ofNat m).toNat = m := by
  have hv : m.isValidChar := Or.inl (by omega)
  rw [Char.ofNat, dif_pos hv]
  simp [Char.ofNatAux, Char.toNat, UInt32.toNat, BitVec.toNat_ofNatLt]

theorem toLower_scheme_not_special {c : Char} (hc : isSchemeChar c = true) :
    c.toLower ≠ ':' ∧ c.toLower ≠ '/' := by
  unfold Char.toLower
  by_cases h : c.toNat ≥ 65 ∧ c.toNat ≤ 90
  · rw [if_pos h]
    have ht : (Char.ofNat (c.toNat + 32)).toNat = c.toNat + 32 :=
      char_ofNat_toNat_lower _ (by omega) (by omega)
    constructor <;> intro he <;> rw [he] at ht
    · have h58 : (':').toNat = 58 := rfl
      omega
    · have h47 : ('/').toNat = 47 := rfl
      omega
  · rw [if_neg h]
    constructor <;> rintro rfl <;> revert hc <;> decide

theorem url_scheme_not_special (h : Str) : ∀ c ∈ url_scheme h, c ≠ ':' ∧ c ≠ '/' := by
  intro c hc
  unfold url_scheme urlSchemeSplit at hc
  cases hsp : splitColon h with
  | none =>
    rw [hsp] at hc
    simp at hc
  | some pr =>
    obtain ⟨p, r⟩ := pr
    rw [hsp] at hc
    simp only [] at hc
    by_cases hv : validScheme p
    · rw [if_pos hv] at hc
      simp only at hc
      rcases List.mem_map.mp hc with ⟨c0, hc0, hlow⟩
      rw [← hlow]
      exact toLower_scheme_not_special (validScheme_mem hv hc0)
    · rw [if_neg hv] at hc
      simp at hc

theorem url_netloc_no_stop (h : Str) : ∀ c ∈ url_netloc h, isStopChar c = false := by
  intro c hc
  unfold url_netloc at hc
  split at hc
  · split at hc
    · have := List.mem_takeWhile_imp hc
      simpa using this
    · simp at hc
  · simp at hc

/-! ## Same-origin analysis: rstripSlash decomposition -/

theorem rdropWhile_append_rtakeWhile (p : Char → Bool) (l : List Char) :
    l.rdropWhile p ++ l.rtakeWhile p = l := by
  unfold List.rdropWhile List.rtakeWhile
  rw [← List.reverse_append, List.takeWhile_append_dropWhile, List.reverse_reverse]

theorem rstripSlash_append_slashes (a : Str) :
    ∀ (b : Str), (∀ c ∈ b, c = '/') → rstripSlash (a ++ b) = rstripSlash a := by
  intro b
  induction b using List.reverseRecOn with
  | nil => intro _; rw [List.append_nil]
  | append_singleton b' x ih =>
    intro hb
    have hx : x = '/' := hb x (by simp)
    rw [← List.append_assoc]
    unfold rstripSlash
    rw [List.rdropWhile_concat_pos _ _ _ (by simp [hx])]
    exact ih (fun c hc => hb c (by simp [hc]))

theorem rstripSlash_append_last_ne (a w : Str) (hw : w ≠ [])
    (hlast : ∀ c, w.getLast? = some c → c ≠ '/') :
    rstripSlash (a ++ w) = a ++ w := by
  refine rstripSlash_of_getLast? ?_
  intro c hc
  rw [List.getLast?_append_of_ne_nil a hw] at hc
  exact hlast c hc

theorem rstripSlash_getLast?_ne (u : Str) (hne : rstripSlash u ≠ []) :
    ∀ c, (rstripSlash u).getLast? = some c → c ≠ '/' := by
  intro c hc
  have := last_ne_rstripSlash u hne
  rw [List.getLast?_eq_getLast _ hne] at hc
  injection hc with hc
  rw [← hc]
  exact this

theorem rstripSlash_canonical (s u : Str) :
    rstripSlash (s ++ ':' :: '/' :: '/' :: u) =
      if rstripSlash u = [] then s ++ [':']
      else s ++ ':' :: '/' :: '/' :: rstripSlash u := by
  have hdecomp : u = rstripSlash u ++ u.rtakeWhile (fun c => c = '/') :=
    (rdropWhile_append_rtakeWhile _ u).symm
  have htrail : ∀ c ∈ u.rtakeWhile (fun c => c = '/'), c = '/' := by
    intro c hc
    have := List.mem_rtakeWhile_imp hc
    simpa using this
  by_cases hw : rstripSlash u = []
  · rw [if_pos hw]
    have hu : ∀ c ∈ u, c = '/' := by
      rw [hdecomp, hw]
      simpa using htrail
    have h1 : s ++ ':' :: '/' :: '/' :: u = (s ++ [':']) ++ ('/' :: '/' :: u) := by simp
    rw [h1, rstripSlash_append_slashes (s ++ [':']) ('/' :: '/' :: u) (by
      intro c hc
      rcases List.mem_cons.mp hc with h | h
      · exact h
      · rcases List.mem_cons.mp h with h | h
        · exact h
        · exact hu c h)]
    refine rstripSlash_of_getLast? ?_
    intro c hc
    rw [List.getLast?_append_of_ne_nil s (by simp)] at hc
    simp only [List.getLast?_singleton, Option.some.injEq] at hc
    rw [← hc]
    decide
  · rw [if_neg hw]
    have h1 : s ++ ':' :: '/' :: '/' :: u
        = (s ++ ':' :: '/' :: '/' :: rstripSlash u) ++ u.rtakeWhile (fun c => c = '/') := by
      conv_lhs => rw [hdecomp]
      simp
    rw [h1, rstripSlash_append_slashes _ _ htrail]
    exact rstripSlash_append_last_ne s _ (by simp) (by
      intro c hc
      rw [show (':' :: '/' :: '/' :: rstripSlash u : Str)
        = [':', '/', '/'] ++ rstripSlash u from rfl] at hc
      rw [List.getLast?_append_of_ne_nil _ hw] at hc
      exact rstripSlash_getLast?_ne u hw c hc)

/-! ## Same-origin analysis: forcing scheme and host -/

theorem schemehost_inj : ∀ (s1 : Str) (s2 n1 n2 : Str),
    (∀ c ∈ s1, c ≠ ':') → (∀ c ∈ s2, c ≠ ':') →
    s1 ++ ':' :: n1 = s2 ++ ':' :: n2 → s1 = s2 ∧ n1 = n2 := by
  intro s1
  induction s1 with
  | nil =>
    intro s2 n1 n2 _ hs2 he
    cases s2 with
    | nil =>
      simp only [List.nil_append, List.cons.injEq] at he
      exact ⟨rfl, he.2⟩
    | cons c2 s2' =>
      simp only [List.nil_append, List.cons_append, List.cons.injEq] at he
      exact absurd he.1.symm (hs2 c2 (List.mem_cons_self c2 s2'))
  | cons c1 s1' ih =>
    intro s2 n1 n2 hs1 hs2 he
    cases s2 with
    | nil =>
      simp only [List.cons_append, List.nil_append, List.cons.injEq] at he
      exact absurd he.1 (hs1 c1 (List.mem_cons_self c1 s1'))
    | cons c2 s2' =>
      simp only [List.cons_append, List.cons.injEq] at he
      obtain ⟨hc, hrest⟩ := he
      have := ih s2' n1 n2 (fun c hc => hs1 c (List.mem_cons.mpr (Or.inr hc)))
        (fun c hc => hs2 c (List.mem_cons.mpr (Or.inr hc))) hrest
      exact ⟨by rw [hc, this.1], this.2⟩

theorem check_forces_schemehost (sch host s' n' : Str)
    (hsch : sch = "http".data ∨ sch = "https".data)
    (hs' : ∀ c ∈ s', c ≠ ':' ∧ c ≠ '/')
    (hn' : ∀ c ∈ n', isStopChar c = false)
    (hhost : ∀ c ∈ host, isStopChar c = false)
    (heq : rstripSlash (s' ++ ':' :: '/' :: '/' :: n')
      = rstripSlash (sch ++ ':' :: '/' :: '/' :: host)) :
    s' = sch ∧ n' = host := by
  have hschc : ∀ c ∈ sch, c ≠ ':' := by
    rcases hsch with h | h <;> subst h <;> decide
  have hs'c : ∀ c ∈ s', c ≠ ':' := fun c hc => (hs' c hc).1
  have hno_slash : ∀ (m : Str), (∀ c ∈ m, isStopChar c = false) → rstripSlash m = m := by
    intro m hm
    refine rstripSlash_of_getLast? ?_
    intro c hc he
    have hmem : c ∈ m := by
      cases m with
      | nil => simp at hc
      | cons a as =>
        have := List.getLast?_eq_getLast (a :: as) (by simp)
        rw [this] at hc
        injection hc with hc
        rw [← hc]
        exact List.getLast_mem _
    have := hm c hmem
    rw [he] at this
    simp [isStopChar] at this
  have hrs : rstripSlash n' = n' := hno_slash n' hn'
  have hrh : rstripSlash host = host := hno_slash host hhost
  rw [rstripSlash_canonical, rstripSlash_canonical, hrs, hrh] at heq
  by_cases h1 : n' = []
  · by_cases h2 : host = []
    · rw [if_pos h1, if_pos h2] at heq
      have := schemehost_inj s' sch [] [] hs'c hschc (by
        simpa using heq)
      exact ⟨this.1, h1.trans h2.symm⟩
    · rw [if_pos h1, if_neg h2] at heq
      have := schemehost_inj s' sch [] ('/' :: '/' :: host) hs'c hschc (by
        simpa using heq)
      exact absurd this.2.symm (by simp)
  · by_cases h2 : host = []
    · rw [if_neg h1, if_pos h2] at heq
      have := schemehost_inj s' sch ('/' :: '/' :: n') [] hs'c hschc (by
        simpa using heq)
      exact absurd this.2 (by simp)
    · rw [if_neg h1, if_neg h2] at heq
      have := schemehost_inj s' sch ('/' :: '/' :: n') ('/' :: '/' :: host) hs'c hschc heq
      refine ⟨this.1, ?_⟩
      have h3 := this.2
      simp only [List.cons.injEq, true_and] at h3
      exact h3

/-! ## Same-origin analysis: normalisation preserves scheme and netloc -/

theorem splitColon_eq : ∀ {s p r : Str}, splitColon s = some (p, r) →
    s = p ++ ':' :: r ∧ ':' ∉ p := by
  intro s
  induction s with
  | nil => intro p r h; simp [splitColon] at h
  | cons c cs ih =>
    intro p r h
    by_cases hc : c = ':'
    · subst hc
      rw [show splitColon (':' :: cs) = some ([], cs) from by simp [splitColon]] at h
      injection h with h
      injection h with h1 h2
      rw [← h1, ← h2]
      exact ⟨rfl, by simp⟩
    · simp only [splitColon, if_neg hc] at h
      cases hsp : splitColon cs with
      | none => rw [hsp] at h; simp at h
      | some pr =>
        obtain ⟨p', r'⟩ := pr
        rw [hsp] at h
        simp only [Option.some.injEq, Prod.mk.injEq] at h
        obtain ⟨hp, hr⟩ := h
        obtain ⟨hcs, hmem⟩ := ih hsp
        subst hp
        subst hr
        constructor
        · rw [List.cons_append, hcs]
        · intro hmem2
          rcases List.mem_cons.mp hmem2 with h | h
          · exact hc h.symm
          · exact hmem h

theorem takeWhile_append_all (q : Char → Bool) (a b : Str) (ha : ∀ c ∈ a, q c = true) :
    (a ++ b).takeWhile q = a ++ b.takeWhile q := by
  have hta : a.takeWhile q = a := List.takeWhile_eq_self_iff.mpr ha
  rw [List.takeWhile_append, hta, if_pos rfl]

theorem takeWhile_nostop_all_slash : ∀ (u : Str), (∀ c ∈ u, c = '/') →
    u.takeWhile (fun c => !isStopChar c) = [] := by
  intro u hu
  cases u with
  | nil => rfl
  | cons c cs =>
    have hc : c = '/' := hu c (List.mem_cons_self c cs)
    subst hc
    simp [List.takeWhile_cons, isStopChar]

theorem takeWhile_nostop_rstrip (u : Str) :
    (rstripSlash u).takeWhile (fun c => !isStopChar c)
      = u.takeWhile (fun c => !isStopChar c) := by
  have hdecomp : u = rstripSlash u ++ u.rtakeWhile (fun c => c = '/') :=
    (rdropWhile_append_rtakeWhile _ u).symm
  have htrail : ∀ c ∈ u.rtakeWhile (fun c => c = '/'), c = '/' := by
    intro c hc
    have := List.mem_rtakeWhile_imp hc
    simpa using this
  conv_rhs => rw [hdecomp]
  rw [List.takeWhile_append]
  by_cases hlen : ((rstripSlash u).takeWhile (fun c => !isStopChar c)).length
      = (rstripSlash u).length
  · rw [if_pos hlen]
    have heq : (rstripSlash u).takeWhile (fun c => !isStopChar c) = rstripSlash u :=
      List.IsPrefix.eq_of_length (List.takeWhile_prefix _) hlen
    rw [takeWhile_nostop_all_slash _ htrail, List.append_nil, heq]
  · rw [if_neg hlen]

theorem takeWhile_nostop_of_hashfree (t : Str) :
    (t.takeWhile (fun c => c ≠ '#')).takeWhile (fun c => !isStopChar c)
      = t.takeWhile (fun c => !isStopChar c) := by
  rw [List.takeWhile_takeWhile]
  congr 1
  funext c
  by_cases hs : isStopChar c
  · simp [hs]
  · have hne : c ≠ '#' := by
      intro he
      subst he
      simp [isStopChar] at hs
    simp [hs, hne]

theorem url_scheme_valid {p : Str} (hv : validScheme p = true) (r : Str) :
    url_scheme (p ++ ':' :: r) = p.map Char.toLower := by
  unfold url_scheme
  rw [urlSchemeSplit_valid hv]

theorem url_netloc_valid {p : Str} (hv : validScheme p = true) (r : Str) :
    url_netloc (p ++ ':' :: r) = (match r with
      | c1 :: c2 :: t =>
        if c1 = '/' ∧ c2 = '/' then t.takeWhile (fun c => !isStopChar c) else []
      | _ => []) := by
  unfold url_netloc url_after
  rw [urlSchemeSplit_valid hv]

theorem url_netloc_valid_not_dslash {p : Str} (hv : validScheme p = true) (r : Str)
    (hdsl : ¬∃ t, r = '/' :: '/' :: t) : url_netloc (p ++ ':' :: r) = [] := by
  rw [url_netloc_valid hv]
  cases r with
  | nil => rfl
  | cons c1 r1 =>
    cases r1 with
    | nil => rfl
    | cons c2 t =>
      show (if c1 = '/' ∧ c2 = '/' then t.takeWhile (fun c => !isStopChar c) else []) = []
      rw [if_neg ?_]
      rintro ⟨h1, h2⟩
      subst h1
      subst h2
      exact hdsl ⟨t, rfl⟩

theorem normalize_same_schemehost (h' : Str) (hne : url_scheme h' ≠ []) :
    url_scheme (normalizeLink h') = url_scheme h' ∧
    url_netloc (normalizeLink h') = url_netloc h' := by
  obtain ⟨p, r, hv, hdec⟩ : ∃ p r, validScheme p = true ∧ h' = p ++ ':' :: r := by
    unfold url_scheme urlSchemeSplit at hne
    cases hsp : splitColon h' with
    | none => rw [hsp] at hne; simp at hne
    | some pr =>
      obtain ⟨p, r⟩ := pr
      rw [hsp] at hne
      simp only [] at hne
      by_cases hv : validScheme p
      · exact ⟨p, r, hv, (splitColon_eq hsp).1⟩
      · rw [if_neg hv] at hne
        simp at hne
  subst hdec
  have hpq : ∀ c ∈ p ++ [':'], (fun c => decide (c ≠ '#')) c = true := by
    intro c hc
    rcases List.mem_append.mp hc with h | h
    · have := (schemeChar_not_special (validScheme_mem hv h)).2.2.2
      simpa using this
    · simp only [List.mem_singleton] at h
      subst h
      decide
  have hsh : splitHashHead (p ++ ':' :: r) = p ++ ':' :: splitHashHead r := by
    unfold splitHashHead
    rw [show p ++ ':' :: r = (p ++ [':']) ++ r from by simp,
      takeWhile_append_all _ _ _ hpq, List.append_assoc]
    rfl
  by_cases hdsl : ∃ t, r = '/' :: '/' :: t
  · obtain ⟨t, ht⟩ := hdsl
    subst ht
    have hsh2 : splitHashHead ('/' :: '/' :: t) = '/' :: '/' :: splitHashHead t := by
      simp [splitHashHead, List.takeWhile_cons]
    have hnl : normalizeLink (p ++ ':' :: '/' :: '/' :: t)
        = rstripSlash (p ++ ':' :: '/' :: '/' :: splitHashHead t) := by
      unfold normalizeLink
      rw [hsh, hsh2]
    rw [hnl, rstripSlash_canonical]
    have hnet : url_netloc (p ++ ':' :: '/' :: '/' :: t)
        = t.takeWhile (fun c => !isStopChar c) := by
      rw [url_netloc_valid hv]
      rfl
    by_cases hru : rstripSlash (splitHashHead t) = []
    · rw [if_pos hru]
      have hslash : ∀ c ∈ splitHashHead t, c = '/' := by
        intro c hc
        have := List.rdropWhile_eq_nil_iff.mp hru c hc
        simpa using this
      constructor
      · rw [show p ++ [':'] = p ++ ':' :: ([] : Str) from rfl, url_scheme_valid hv,
          url_scheme_valid hv]
      · rw [show p ++ [':'] = p ++ ':' :: ([] : Str) from rfl, url_netloc_valid hv, hnet]
        show ([] : Str) = _
        rw [← takeWhile_nostop_of_hashfree t]
        rw [show t.takeWhile (fun c => c ≠ '#') = splitHashHead t from rfl]
        rw [takeWhile_nostop_all_slash _ hslash]
    · rw [if_neg hru]
      constructor
      · rw [url_scheme_valid hv, url_scheme_valid hv]
      · rw [url_netloc_valid hv, hnet]
        show (rstripSlash (splitHashHead t)).takeWhile (fun c => !isStopChar c) = _
        rw [takeWhile_nostop_rstrip]
        rw [show (splitHashHead t).takeWhile (fun c => !isStopChar c)
          = (t.takeWhile (fun c => c ≠ '#')).takeWhile (fun c => !isStopChar c) from rfl]
        rw [takeWhile_nostop_of_hashfree t]
  · have hnet : url_netloc (p ++ ':' :: r) = [] :=
      url_netloc_valid_not_dslash hv r hdsl
    have hnl : normalizeLink (p ++ ':' :: r)
        = rstripSlash ((p ++ [':']) ++ splitHashHead r) := by
      unfold normalizeLink
      rw [hsh]
      simp
    have hdecomp : splitHashHead r = rstripSlash (splitHashHead r)
        ++ (splitHashHead r).rtakeWhile (fun c => c = '/') :=
      (rdropWhile_append_rtakeWhile _ _).symm
    have htrail : ∀ c ∈ (splitHashHead r).rtakeWhile (fun c => c = '/'), c = '/' := by
      intro c hc
      have := List.mem_rtakeWhile_imp hc
      simpa using this
    by_cases hru : rstripSlash (splitHashHead r) = []
    · have hslash : ∀ c ∈ splitHashHead r, c = '/' := by
        intro c hc
        have := List.rdropWhile_eq_nil_iff.mp hru c hc
        simpa using this
      have : normalizeLink (p ++ ':' :: r) = p ++ [':'] := by
        rw [hnl, rstripSlash_append_slashes _ _ hslash]
        refine rstripSlash_of_getLast? ?_
        intro c hc
        rw [List.getLast?_append_of_ne_nil p (by simp)] at hc
        simp only [List.getLast?_singleton, Option.some.injEq] at hc
        rw [← hc]
        decide
      rw [this, hnet]
      constructor
      · rw [show p ++ [':'] = p ++ ':' :: ([] : Str) from rfl, url_scheme_valid hv,
          url_scheme_valid hv]
      · rw [show p ++ [':'] = p ++ ':' :: ([] : Str) from rfl, url_netloc_valid hv]
    · have hw : normalizeLink (p ++ ':' :: r)
          = p ++ ':' :: rstripSlash (splitHashHead r) := by
        rw [hnl]
        conv_lhs => rw [hdecomp]
        rw [← List.append_assoc, rstripSlash_append_slashes _ _ htrail]
        rw [rstripSlash_append_last_ne _ _ hru (rstripSlash_getLast?_ne _ hru)]
        simp
      have hwdsl : ¬∃ t, rstripSlash (splitHashHead r) = '/' :: '/' :: t := by
        rintro ⟨t, ht⟩
        have hp1 : rstripSlash (splitHashHead r) <+: splitHashHead r :=
          rstripSlash_isPrefix _
        have hp2 : splitHashHead r <+: r := List.takeWhile_prefix _
        obtain ⟨rest, hrest⟩ := hp1.trans hp2
        rw [ht] at hrest
        exact hdsl ⟨t ++ rest, by rw [← hrest]; simp⟩
      rw [hw, hnet]
      constructor
      · rw [url_scheme_valid hv, url_scheme_valid hv]
      · exact url_netloc_valid_not_dslash hv _ hwdsl

theorem url_of_norm_site_base (inp : Str) :
    url_scheme (norm_site inp).1 = url_scheme (prefixedSite inp) ∧
    url_netloc (norm_site inp).1 = (norm_site inp).2 := by
  have hbase : (norm_site inp).1
      = url_scheme (prefixedSite inp) ++ ':' :: '/' :: '/' :: (norm_site inp).2 := rfl
  have hhostd : (norm_site inp).2 = url_netloc (prefixedSite inp) := rfl
  have hnostop : ∀ c ∈ (norm_site inp).2, isStopChar c = false := by
    rw [hhostd]
    exact url_netloc_no_stop _
  have htw : ((norm_site inp).2).takeWhile (fun c => !isStopChar c) = (norm_site inp).2 :=
    List.takeWhile_eq_self_iff.mpr (by
      intro c hc
      simpa using hnostop c hc)
  rcases url_scheme_prefixedSite inp with hs | hs
  · rw [hbase, hs]
    constructor
    · rw [url_scheme_valid (by decide : validScheme "http".data = true)]
      decide
    · rw [url_netloc_valid (by decide : validScheme "http".data = true)]
      show (if ('/' : Char) = '/' ∧ ('/' : Char) = '/'
        then ((norm_site inp).2).takeWhile (fun c => !isStopChar c) else []) = _
      rw [if_pos ⟨rfl, rfl⟩, htw]
  · rw [hbase, hs]
    constructor
    · rw [url_scheme_valid (by decide : validScheme "https".data = true)]
      decide
    · rw [url_netloc_valid (by decide : validScheme "https".data = true)]
      show (if ('/' : Char) = '/' ∧ ('/' : Char) = '/'
        then ((norm_site inp).2).takeWhile (fun c => !isStopChar c) else []) = _
      rw [if_pos ⟨rfl, rfl⟩, htw]

/-! ## Claim C4: the scraper only emits same-origin URLs -/

/-- C4: every URL in the HTML scraper's output has scheme and host equal to
those of the site's base URL, and any candidate href whose scheme+host (after
the optional `urljoin`) differ from the base URL is never added: the step
function returns the link set unchanged. -/
theorem scraper_same_origin (inp : Str) (uj : Str → Str → Str) (home : Option HtmlPage)
    (net1 net2 : Nat → Option HtmlPage) :
    (∀ l ∈ scrape_posts_from_paged_lists (norm_site inp).1 uj home net1 net2 2,
      url_scheme l = url_scheme (norm_site inp).1 ∧
      url_netloc l = url_netloc (norm_site inp).1) ∧
    (∀ (links : List Str) (h : Str),
      rstripSlash (url_scheme (if url_scheme h = [] then uj (norm_site inp).1 h else h)
          ++ ':' :: '/' :: '/' ::
          url_netloc (if url_scheme h = [] then uj (norm_site inp).1 h else h))
        ≠ rstripSlash (norm_site inp).1 →
      stepCandidate (norm_site inp).1 uj links (some h) = links) := by
  constructor
  · intro l hl
    obtain ⟨h', hck, hl'⟩ :=
      (scrape_posts_canonical (norm_site inp).1 uj home net1 net2 2).2 l hl
    have hbase : (norm_site inp).1
        = url_scheme (prefixedSite inp) ++ ':' :: '/' :: '/' :: (norm_site inp).2 := rfl
    have hforce : url_scheme h' = url_scheme (prefixedSite inp) ∧
        url_netloc h' = (norm_site inp).2 := by
      refine check_forces_schemehost (url_scheme (prefixedSite inp)) (norm_site inp).2
        (url_scheme h') (url_netloc h') (url_scheme_prefixedSite inp)
        (url_scheme_not_special h') (url_netloc_no_stop h') ?_ ?_
      · show ∀ c ∈ url_netloc (prefixedSite inp), isStopChar c = false
        exact url_netloc_no_stop _
      · rw [← hbase]
        exact hck
    have hsne : url_scheme h' ≠ [] := by
      rw [hforce.1]
      rcases url_scheme_prefixedSite inp with hs | hs <;> rw [hs] <;> decide
    obtain ⟨hsch, hnet⟩ := normalize_same_schemehost h' hsne
    obtain ⟨hbs, hbn⟩ := url_of_norm_site_base inp
    subst hl'
    constructor
    · rw [hsch, hforce.1, hbs]
    · rw [hnet, hforce.2, hbn]
  · intro links h hne
    cases h with
    | nil => rfl
    | cons c cs =>
      simp only [stepCandidate]
      rw [if_neg hne]

theorem scraper_same_origin_witness :
    url_scheme "https://example.com/post1".data
      = url_scheme (norm_site "example.com".data).1 ∧
    url_netloc "https://example.com/post1".data
      = url_netloc (norm_site "example.com".data).1 := by
  have hl0 : extract_links (norm_site "example.com".data).1 (fun _ h => h)
      [some "https://example.com/post1".data] []
      = ["https://example.com/post1".data] := by decide
  have h2 := scrapeLoop_stop (norm_site "example.com".data).1 (fun _ h => h)
    (fun _ => none) (fun _ => none) 2 2 0 1 ["https://example.com/post1".data]
    (by omega) (by omega) (fun j hj => rfl)
  have hscrape : scrape_posts_from_paged_lists (norm_site "example.com".data).1 (fun _ h => h)
      (some [some "https://example.com/post1".data]) (fun _ => none) (fun _ => none) 2
      = ["https://example.com/post1".data] := by
    unfold scrape_posts_from_paged_lists
    show (scrapeLoop (norm_site "example.com".data).1 (fun _ h => h)
      (fun _ => none) (fun _ => none) 2
      (extract_links (norm_site "example.com".data).1 (fun _ h => h)
        [some "https://example.com/post1".data] []) 0 1).1 = _
    rw [hl0, h2]
  exact (scraper_same_origin "example.com".data (fun _ h => h)
    (some [some "https://example.com/post1".data]) (fun _ => none) (fun _ => none)).1
    "https://example.com/post1".data (by rw [hscrape]; exact List.mem_singleton_self _)

/-! ## XML pretty-printer lemmas -/

theorem Xml.indOn (motive : Xml → Prop) (htext : ∀ s, motive (.text s))
    (helem : ∀ t a cs, (∀ c ∈ cs, motive c) → motive (.elem t a cs)) : ∀ x, motive x
  | .text s => htext s
  | .elem t a cs => helem t a cs (fun c hc =>
      have : sizeOf c < sizeOf (Xml.elem t a cs) := by
        have h1 := List.sizeOf_lt_of_mem hc
        simp only [Xml.elem.sizeOf_spec]
        omega
      Xml.indOn motive htext helem c)
termination_by x => sizeOf x

theorem stripChildren_eq : ∀ cs : List Xml,
    stripChildren cs = (cs.filter keepNode).map stripBlank := by
  intro cs
  induction cs with
  | nil => rfl
  | cons c cs ih =>
    by_cases hk : keepNode c
    · simp only [stripChildren, if_pos hk, List.filter_cons, hk, if_true, List.map_cons, ih]
    · simp only [stripChildren, if_neg hk, List.filter_cons]
      exact ih

theorem withIndentList_eq (lvl : Nat) (fmt : Bool) : ∀ cs : List Xml,
    withIndentList lvl fmt cs = cs.map (withIndent lvl fmt) := by
  intro cs
  induction cs with
  | nil => rfl
  | cons c cs ih => simp only [withIndentList, List.map_cons, ih]

theorem keepNode_stripBlank {c : Xml} (h : keepNode c = true) :
    keepNode (stripBlank c) = true := by
  cases c with
  | text s => exact h
  | elem t a cs => rfl

theorem keepNode_withIndent (lvl : Nat) (fmt : Bool) (c : Xml) :
    keepNode (withIndent lvl fmt c) = keepNode c := by
  cases c with
  | text s => rfl
  | elem t a cs =>
    show keepNode _ = true
    simp only [withIndent]
    split <;> rfl

theorem isBlank_indentStr (lvl : Nat) : isBlankStr (indentStr lvl) = true := by
  simp only [isBlankStr, indentStr, List.all_cons, Bool.and_eq_true, List.all_eq_true]
  refine ⟨by decide, ?_⟩
  intro c hc
  rw [List.eq_of_mem_replicate hc]
  decide

theorem filter_keep_addIndent (lvl : Nat) (cs : List Xml) :
    (addIndentNodes lvl cs).filter keepNode = cs.filter keepNode := by
  unfold addIndentNodes
  rw [List.filter_append]
  have h1 : List.filter keepNode [Xml.text (indentStr lvl)] = [] := by
    simp [List.filter_cons, keepNode, isBlank_indentStr lvl]
  rw [h1, List.append_nil]
  induction cs with
  | nil => rfl
  | cons c cs ih =>
    simp only [List.flatMap_cons, List.filter_append, List.filter_cons]
    rw [show (keepNode (Xml.text (indentStr (lvl + 1))) = false) from by
      simp [keepNode, isBlank_indentStr], List.filter_nil]
    simp only [ih]
    by_cases hk : keepNode c
    · simp [hk]
    · simp [hk]

theorem stripChildren_withIndentList (lvl : Nat) (F : Bool) (cs : List Xml)
    (ih : ∀ c ∈ cs, ∀ (lvl : Nat) (fmt : Bool), stripBlank (withIndent lvl fmt c) = stripBlank c) :
    stripChildren (withIndentList lvl F cs) = stripChildren cs := by
  rw [stripChildren_eq, stripChildren_eq, withIndentList_eq, List.filter_map]
  rw [List.filter_congr (fun c _ => by
    show keepNode (withIndent lvl F c) = keepNode c
    exact keepNode_withIndent lvl F c)]
  rw [List.map_map]
  refine List.map_congr_left ?_
  intro c hc
  exact ih c (List.mem_of_mem_filter hc) lvl F

theorem stripBlank_withIndent : ∀ (x : Xml) (lvl : Nat) (fmt : Bool),
    stripBlank (withIndent lvl fmt x) = stripBlank x := by
  intro x
  induction x using Xml.indOn with
  | htext s => intro lvl fmt; rfl
  | helem t a cs ih =>
    intro lvl fmt
    simp only [withIndent]
    by_cases hf : (fmt && !cs.any isTextNode) && !cs.isEmpty
    · rw [if_pos hf]
      show Xml.elem t a (stripChildren (addIndentNodes lvl
        (withIndentList (lvl + 1) (fmt && !cs.any isTextNode) cs)))
        = Xml.elem t a (stripChildren cs)
      congr 1
      rw [stripChildren_eq, filter_keep_addIndent, ← stripChildren_eq]
      exact stripChildren_withIndentList _ _ cs ih
    · rw [if_neg hf]
      show Xml.elem t a (stripChildren
        (withIndentList (lvl + 1) (fmt && !cs.any isTextNode) cs))
        = Xml.elem t a (stripChildren cs)
      congr 1
      exact stripChildren_withIndentList _ _ cs ih

theorem stripBlank_idem : ∀ x : Xml, stripBlank (stripBlank x) = stripBlank x := by
  intro x
  induction x using Xml.indOn with
  | htext s => rfl
  | helem t a cs ih =>
    show Xml.elem t a (stripChildren (stripChildren cs)) = Xml.elem t a (stripChildren cs)
    congr 1
    rw [stripChildren_eq, stripChildren_eq, List.filter_map]
    rw [show (cs.filter keepNode).filter (keepNode ∘ stripBlank) = cs.filter keepNode from
      List.filter_eq_self.mpr (fun c hc => keepNode_stripBlank (List.of_mem_filter hc))]
    rw [List.map_map]
    refine List.map_congr_left ?_
    intro c hc
    exact ih c (List.mem_of_mem_filter hc)

/-! ## Claim C9: the XML pretty-printer is idempotent on its own output -/

/-- C9: feeding a pretty-printed document back through `pretty_print_xml`
yields byte-identical output.  A pass is modelled at tree level: parsing with
the whitespace-stripping parser is `stripBlank`, serialising with
`pretty_print=True` produces the document whose plain serialisation carries the
inserted indentation nodes (`withIndent`), and the output bytes are
`renderTree` of that tree plus a final newline.  The tree obtained by parsing
the first pass's output is `prettyPassTree t`, so the second pass's output is
`prettyOutput (prettyPassTree t)`. -/
theorem prettyxml_idempotent (t : Xml) :
    prettyOutput (prettyPassTree t) = prettyOutput t ∧
    prettyPassTree (prettyPassTree t) = prettyPassTree t := by
  have hpass : prettyPassTree (prettyPassTree t) = prettyPassTree t := by
    unfold prettyPassTree
    rw [stripBlank_withIndent, stripBlank_idem]
  refine ⟨?_, hpass⟩
  unfold prettyOutput
  rw [hpass]
